import Mathlib

/-!
Verification development for the mozey/config resolution and composition
engine (package cmdconfig). The Go source is shallowly embedded: strings are
Lean strings (byte order and unicode code point order agree for UTF-8, so Go
byte-wise comparisons are modelled by char-wise comparisons), Go maps are
association lists, the filesystem is an explicit structure, and fallible Go
functions returning (value, err) pairs are modelled with Except.
-/

set_option maxHeartbeats 1000000

/-- Double quote character, written via its code point. -/
def dquote : Char := Char.ofNat 34

/-- Character class of the Go regexp escape backslash-s as used by the RE2
engine: tab, newline, form feed, carriage return and space. -/
def isRegexSpace (c : Char) : Bool :=
  c = ' ' || c = '\t' || c = '\n' || c = '\x0c' || c = '\x0d'

/-- Character class [_a-zA-Z0-9] used for keys by the line codec regexp,
identical to the RE2 word class. -/
def isWordChar (c : Char) : Bool :=
  c = '_' || c.isAlpha || c.isDigit

/-- Characters trimmed by the Go function strings.TrimSpace (unicode.IsSpace),
the Unicode White_Space property: the ASCII whitespace characters, NEL, NBSP,
OGHAM SPACE MARK, the EN QUAD to HAIR SPACE block, LINE SEPARATOR, PARAGRAPH
SEPARATOR, NARROW NO-BREAK SPACE, MEDIUM MATHEMATICAL SPACE and IDEOGRAPHIC
SPACE. -/
def isGoSpace (c : Char) : Bool :=
  c = ' ' || c = '\t' || c = '\n' || c = '\x0b' || c = '\x0c' || c = '\x0d' ||
  c = '\x85' || c = '\xa0' || c = '\u1680' ||
  c = '\u2000' || c = '\u2001' || c = '\u2002' || c = '\u2003' || c = '\u2004' ||
  c = '\u2005' || c = '\u2006' || c = '\u2007' || c = '\u2008' || c = '\u2009' ||
  c = '\u200a' || c = '\u2028' || c = '\u2029' || c = '\u202f' || c = '\u205f' ||
  c = '\u3000'

/-- Drop matching characters from the end of a list. -/
def dropWhileEnd (p : Char → Bool) (l : List Char) : List Char :=
  (l.reverse.dropWhile p).reverse

/-- Model of strings.TrimSpace on character lists. -/
def goTrimSpace (l : List Char) : List Char :=
  dropWhileEnd isGoSpace (l.dropWhile isGoSpace)

/-- Model of strings.TrimSpace on strings. -/
def goTrimSpaceStr (s : String) : String :=
  String.mk (goTrimSpace s.data)

/-- Model of strings.TrimPrefix with the double quote: remove one leading
double quote when present. -/
def trimLeadQuote (l : List Char) : List Char :=
  match l with
  | [] => []
  | c :: rest => if c = dquote then rest else c :: rest

/-- Model of strings.TrimSuffix with the double quote: remove one trailing
double quote when present. -/
def trimTrailQuote (l : List Char) : List Char :=
  match l.reverse with
  | [] => l
  | c :: rest => if c = dquote then rest.reverse else l

/-- Length of the leading run of regexp whitespace characters. -/
def wsRun : List Char → Nat
  | [] => 0
  | c :: cs => if isRegexSpace c then wsRun cs + 1 else 0

/-- Length of the leading run of word characters. -/
def wordRun : List Char → Nat
  | [] => 0
  | c :: cs => if isWordChar c then wordRun cs + 1 else 0

/-- Length of the leading run of characters matched by the regexp dot,
which is every character except newline. -/
def dotRun : List Char → Nat
  | [] => 0
  | c :: cs => if c = '\n' then 0 else dotRun cs + 1

/-- The list [hi, hi-1, ..., lo]; empty when hi < lo. A greedy subpattern of
a backtracking regexp engine tries the longest repetition count first, so
candidate counts are enumerated in this order. -/
def descRange (lo hi : Nat) : List Nat :=
  (List.range (hi + 1 - lo)).map (fun i => hi - i)

/-- Model of one match attempt of the compiled line codec pattern
(multiline) caret backslash-s-star key-class-plus backslash-s-star equals
backslash-s-star dot-plus backslash-s-star dollar
at a position where the multiline caret holds; cs is the rest of the input
from that position. Returns the length of the match found by leftmost-first
(backtracking preference) semantics, which is what the Go regexp package
documents for non-POSIX regexps. Every starred piece is greedy, so counts
are tried in descending order; the final dollar accepts at end of input or
before a newline. -/
def matchFrom (cs : List Char) : Option Nat :=
  (descRange 0 (wsRun cs)).findSome? fun k1 =>
    let cs1 := cs.drop k1
    (descRange 1 (wordRun cs1)).findSome? fun k2 =>
      let cs2 := cs1.drop k2
      (descRange 0 (wsRun cs2)).findSome? fun k3 =>
        let cs3 := cs2.drop k3
        if cs3.head? = some '=' then
          let cs4 := cs3.tail
          (descRange 0 (wsRun cs4)).findSome? fun k5 =>
            let cs5 := cs4.drop k5
            (descRange 1 (dotRun cs5)).findSome? fun k6 =>
              let cs6 := cs5.drop k6
              (descRange 0 (wsRun cs6)).findSome? fun k7 =>
                let cs7 := cs6.drop k7
                if cs7.isEmpty then some (k1 + k2 + k3 + 1 + k5 + k6 + k7)
                else if cs7.head? = some '\n' then some (k1 + k2 + k3 + 1 + k5 + k6 + k7)
                else none
        else none

/-- Drop up to and including the next newline: moves from a failed match
position to the next position where the multiline caret can hold. -/
def nextLine : List Char → List Char
  | [] => []
  | c :: rest => if c = '\n' then rest else nextLine rest

/-- Model of FindAllString with the line codec pattern: scan the input from
each line start, emit the leftmost-first match there if any and resume after
it, otherwise move to the next line start. The fuel argument is structural
and any value larger than the length of the input is enough, since every
step consumes at least one character. -/
def findAllAux : Nat → List Char → List (List Char)
  | 0, _ => []
  | _ + 1, [] => []
  | fuel + 1, c :: cs =>
    match matchFrom (c :: cs) with
    | some len =>
      let matched := (c :: cs).take len
      if matched.getLast? = some '\n' then
        -- the match ends right after a newline, so the resume position is
        -- again a line start
        matched :: findAllAux fuel ((c :: cs).drop len)
      else
        -- the final dollar held before a newline (or at the end); skip that
        -- newline to reach the next line start
        matched :: findAllAux fuel (nextLine ((c :: cs).drop len))
    | none => findAllAux fuel (nextLine (c :: cs))

/-- All matches of the line codec pattern in the input. -/
def findAllMatches (cs : List Char) : List (List Char) :=
  findAllAux (cs.length + 1) cs

/-- Model of strings.Cut with separator equals: split at the first equals
sign, none when there is no equals sign (Cut reports found=false). -/
def cutEq (l : List Char) : Option (List Char × List Char) :=
  match l with
  | [] => none
  | c :: rest =>
    if c = '=' then some ([], rest)
    else (cutEq rest).map (fun p => (c :: p.1, p.2))

/-- Go map assignment on the association list model: replace the value in
place when the key is present, append otherwise. -/
def mapSet : List (String × String) → String → String → List (String × String)
  | [], k, v => [(k, v)]
  | (k', v') :: rest, k, v =>
    if k' = k then (k, v) :: rest else (k', v') :: mapSet rest k v

/-- Go map lookup on the association list model. -/
def mapGet (m : List (String × String)) (k : String) : Option String :=
  (m.find? (fun e => decide (e.1 = k))).map (fun e => e.2)

/-- Errors produced by the embedded functions, mirroring pkg/cmdconfig.
The constructors carry the data interpolated into the Go error message. -/
inductive GoErr where
  | duplicateKey (key : String)
  | notImplemented
  | parentNotFound
  | missingKey (key : String)
  | appDirNotExist
  | configNotFound (env : String)
  | emptyFile (base : String)
  | regexpError (line : String)
  | decodeError (msg : String)
  deriving DecidableEq, Repr

/-- Processing of one matched line of UnmarshalENV: split at the first
equals sign (the defensive error when no equals sign is present mirrors the
Go code), trim surrounding whitespace from key and value, and remove one
leading and one trailing double quote from the value before assigning. -/
def envAssign (m : List (String × String)) (line : List Char) :
    Except GoErr (List (String × String)) :=
  match cutEq line with
  | none => Except.error (GoErr.regexpError (String.mk line))
  | some (k, v) =>
    Except.ok (mapSet m (String.mk (goTrimSpace k))
      (String.mk (trimTrailQuote (trimLeadQuote (goTrimSpace v)))))

/-- Model of UnmarshalENV (pkg/cmdconfig/env.go): collect every match of the
line codec pattern and fold them into the result map in order. -/
def UnmarshalENV (b : String) : Except GoErr (List (String × String)) :=
  (findAllMatches b.data).foldlM envAssign []

/-- Byte-order comparison of strings as done by Go (UTF-8 byte order agrees
with code point order): true when a is less than or equal to b. -/
def strLeIR : List Char → List Char → Bool
  | [], _ => true
  | _ :: _, [] => false
  | a :: as, b :: bs =>
    if a.val < b.val then true
    else if b.val < a.val then false
    else strLeIR as bs

/-- String less-or-equal in Go byte order. -/
def strLe (a b : String) : Bool := strLeIR a.data b.data

/-- Insert into a sorted list, keeping ascending order. -/
def insertSorted (a : String) : List String → List String
  | [] => [a]
  | b :: rest => if strLe a b then a :: b :: rest else b :: insertSorted a rest

/-- Model of sort.Strings: since distinct strings never compare equal, every
correct ascending sort produces the same output, and insertion sort is used
as the model. -/
def sortStrings (l : List String) : List String :=
  l.foldr insertSorted []

/-- The conf type of part_005: map of key to value plus the sorted key list.
The map is an association list because Go maps are unordered; theorems that
depend on iteration order quantify over permutations. -/
structure conf where
  Map : List (String × String)
  Keys : List String
  deriving DecidableEq, Repr

/-- Model of conf.refreshKeys: rebuild Keys as the sorted keys of Map. -/
def conf.refreshKeys (c : conf) : conf :=
  { c with Keys := sortStrings (c.Map.map (fun e => e.1)) }

/-- One step of conf.extend: fail when the key is already present in the
accumulating map, assign it otherwise. -/
def extendStep (acc : conf) (e : String × String) : Except GoErr conf :=
  if (mapGet acc.Map e.1).isSome then Except.error (GoErr.duplicateKey e.1)
  else Except.ok { acc with Map := mapSet acc.Map e.1 e.2 }

/-- Model of conf.extend: fold the extension entries into the receiver,
failing on the first key already present. The entries are processed in list
order; Go map range order is unspecified, so order-sensitive claims
quantify over permutations of this list. -/
def conf.extend (c : conf) (ext : conf) : Except GoErr conf :=
  ext.Map.foldlM extendStep c

/-- One step of MarshalENV: look the key up and append one KEY=VALUE line. -/
def marshalLine (m : List (String × String)) (acc : String) (k : String) :
    Except GoErr String :=
  match mapGet m k with
  | none => Except.error (GoErr.missingKey k)
  | some v => Except.ok (acc ++ k ++ "=" ++ v ++ "\n")

/-- Model of MarshalENV (pkg/cmdconfig/env.go): emit one KEY=VALUE line per
entry of Keys in order, failing when a key is missing from the map. -/
def MarshalENV (c : conf) : Except GoErr String :=
  c.Keys.foldlM (marshalLine c.Map) ""

/-- Paths are modelled as component lists of cleaned absolute paths: the
empty list is the filesystem root, filepath.Join of a directory and a base
name appends a component, and filepath.Dir drops the last component. The
loop in newMergedConf stops when filepath.Dir returns the separator or dot,
both of which are the empty component list here. -/
abbrev GoPath := List String

/-- The filesystem as seen by the embedded functions: a set of existing
directories and a map from file path to content. A path not listed does not
exist (os.IsNotExist); other stat or read failures are outside the model. -/
structure FS where
  dirs : List GoPath
  files : List (GoPath × String)

/-- Content of the file at a path, none when the file does not exist. -/
def FS.fileContent (fs : FS) (p : GoPath) : Option String :=
  (fs.files.find? (fun e => decide (e.1 = p))).map (fun e => e.2)

/-- Base names of the files directly inside a directory. -/
def FS.baseNames (fs : FS) (dir : GoPath) : List String :=
  fs.files.filterMap (fun e => if e.1.dropLast = dir then e.1.getLast? else none)

/-- Model of strings.Contains: the needle occurs somewhere in the haystack. -/
def containsSub (hay needle : List Char) : Bool :=
  needle.isPrefixOf hay ||
    match hay with
    | [] => false
    | _ :: t => containsSub t needle

/-- Model of strings.Replace with count one and an empty replacement: remove
the first occurrence of old. -/
def replaceFirst (hay old : List Char) : List Char :=
  if old.isPrefixOf hay then hay.drop old.length
  else
    match hay with
    | [] => []
    | c :: t => c :: replaceFirst t old

def EnvDev : String := "dev"
def FileTypeENV : String := ".env"
def FileTypeSH : String := ".sh"
def FileTypeJSON : String := ".json"
def FileTypeYAML : String := ".yaml"

/-- The pure part of getConfigFilePath (part_005): compute the base file
name for an environment and file type, handling the sample marker. -/
def configFileName (env0 fileType : String) : String :=
  let env1 := goTrimSpaceStr env0
  let isSample := containsSub env1.data ("sample.").data
  let samplePfx := if isSample then "sample." else ""
  let sample := if isSample then "sample" else ""
  let env2 := if isSample then String.mk (replaceFirst env1.data ("sample.").data) else env1
  if fileType = FileTypeENV && sample = "" && env2 = "" then ".env"
  else
    let env3 := if env2 = "" then env2 else "." ++ env2
    if fileType = FileTypeSH then sample ++ ".env" ++ env3 ++ fileType
    else samplePfx ++ "config" ++ env3 ++ fileType

/-- Model of getConfigFilePath: the app dir must exist, then the file name
is computed and joined onto it. -/
def getConfigFilePath (fs : FS) (appDir : GoPath) (env fileType : String) :
    Except GoErr GoPath :=
  if fs.dirs.contains appDir then Except.ok (appDir ++ [configFileName env fileType])
  else Except.error GoErr.appDirNotExist

/-- One iteration of the precedence loop in getConfigFilePaths: the main
candidate is skipped for the bare line codec type, and the environment-less
fallback is added exactly for the dev environment. -/
def pathsForType (fs : FS) (appDir : GoPath) (env fileType : String) :
    Except GoErr (List GoPath) :=
  match (if fileType = FileTypeENV then Except.ok []
    else (getConfigFilePath fs appDir env fileType).map (fun p => [p])) with
  | Except.error e => Except.error e
  | Except.ok main =>
    match (if env = EnvDev then (getConfigFilePath fs appDir "" fileType).map (fun p => [p])
      else Except.ok []) with
    | Except.error e => Except.error e
    | Except.ok fb => Except.ok (main ++ fb)

/-- Model of getConfigFilePaths: load precedence over the four file types. -/
def getConfigFilePaths (fs : FS) (appDir : GoPath) (env : String) :
    Except GoErr (List GoPath) :=
  match pathsForType fs appDir env FileTypeENV with
  | Except.error e => Except.error e
  | Except.ok l1 =>
    match pathsForType fs appDir env FileTypeSH with
    | Except.error e => Except.error e
    | Except.ok l2 =>
      match pathsForType fs appDir env FileTypeJSON with
      | Except.error e => Except.error e
      | Except.ok l3 =>
        match pathsForType fs appDir env FileTypeYAML with
        | Except.error e => Except.error e
        | Except.ok l4 => Except.ok (l1 ++ l2 ++ l3 ++ l4)

/-- Model of ReadConfigFile: pick the first existing candidate path; no
candidate existing is the config-not-found error, an existing but
whitespace-only file is the empty-file error. -/
def ReadConfigFile (fs : FS) (appDir : GoPath) (env : String) :
    Except GoErr (GoPath × String) :=
  match getConfigFilePaths fs appDir env with
  | Except.error e => Except.error e
  | Except.ok paths =>
    match paths.find? (fun p => (fs.fileContent p).isSome) with
    | none => Except.error (GoErr.configNotFound env)
    | some p =>
      let b := (fs.fileContent p).getD ""
      if goTrimSpaceStr b = "" then Except.error (GoErr.emptyFile (p.getLast?.getD "."))
      else Except.ok (p, b)

/-- Model of filepath.Ext on a base name: the suffix starting at the final
dot, empty when there is no dot. -/
def extOf (name : String) : String :=
  let rev := name.data.reverse
  let pre := rev.takeWhile (fun c => !(c = '.'))
  if pre.length = rev.length then "" else String.mk ('.' :: pre.reverse)

/-- The JSON and YAML codecs are external library functions
(encoding/json and gopkg.in/yaml.v2), not code of this repository; the
embedding abstracts over them. -/
abbrev Unmarshaller := String → Except String (List (String × String))

/-- Model of loadConf: read the config file, dispatch on the extension of
the selected path to a codec, and refresh the key list. -/
def loadConf (fs : FS) (uj uy : Unmarshaller) (appDir : GoPath) (env : String) :
    Except GoErr (GoPath × conf) :=
  match ReadConfigFile fs appDir env with
  | Except.error e => Except.error e
  | Except.ok (configPath, b) =>
    let ft := extOf (configPath.getLast?.getD ".")
    let dec :=
      if ft = FileTypeENV || ft = FileTypeSH then UnmarshalENV b
      else if ft = FileTypeJSON then (uj b).mapError GoErr.decodeError
      else if ft = FileTypeYAML then (uy b).mapError GoErr.decodeError
      else Except.ok []
    match dec with
    | Except.error e => Except.error e
    | Except.ok m => Except.ok (configPath, conf.refreshKeys { Map := m, Keys := [] })

/-- Model of newSingleConf: load one file and wrap its path in a list. -/
def newSingleConf (fs : FS) (uj uy : Unmarshaller) (appDir : GoPath) (env : String) :
    Except GoErr (List GoPath × conf) :=
  match loadConf fs uj uy appDir env with
  | Except.error e => Except.error e
  | Except.ok (p, c) => Except.ok ([p], c)

/-- Modelled from the spec and the comments in the tests: the reserved
extensions-list key (for example APP_X). The function KeyPrefixExtensions is
code of this repository that is not under src. -/
def keyPrefixExtensions (pfx : String) : String := pfx ++ "X"

/-- Modelled from the spec and the comments in the tests: the reserved
extensions-directory key (for example APP_X_DIR). The function
KeyExtensionsDir is code of this repository that is not under src. -/
def keyExtensionsDir (pfx : String) : String := pfx ++ "X_DIR"

/-- Components of a relative path string, modelling filepath.Join cleaning
for the simple shapes used by extension declarations. -/
def relComps (s : String) : List String :=
  (s.splitOn "/").filter (fun x => !(x = ".") && !(x = ""))

/-- Model of newExtendedConf: fold the extension directories into the main
config under the disjoint-key rule, then refresh keys. -/
def newExtendedConf (fs : FS) (uj uy : Unmarshaller) (mainConf : conf)
    (configPaths : List GoPath) (appDir : GoPath) (env : String)
    (extendDirs : List GoPath) : Except GoErr (List GoPath × conf) :=
  match extendDirs.foldlM
      (fun (acc : List GoPath × conf) extDir =>
        match loadConf fs uj uy (appDir ++ extDir) env with
        | Except.error e => Except.error e
        | Except.ok (p, extC) =>
          match acc.2.extend extC with
          | Except.error e => Except.error e
          | Except.ok c2 => Except.ok (acc.1 ++ [p], c2))
      (configPaths, mainConf) with
  | Except.error e => Except.error e
  | Except.ok (paths, c) => Except.ok (paths, c.refreshKeys)

/-- The ancestor walk of newMergedConf: try to load at the current dir; on
failure move to the parent and stop with the parent-not-found error when
the parent is the root or empty (the empty component list). The fuel is
structural; any value above the component count is enough because each step
drops one component. -/
def mergeWalkAux (fs : FS) (uj uy : Unmarshaller) (env : String) :
    Nat → GoPath → Except GoErr (GoPath × conf)
  | 0, _ => Except.error GoErr.parentNotFound
  | fuel + 1, parentDir =>
    match loadConf fs uj uy parentDir env with
    | Except.ok r => Except.ok r
    | Except.error _ =>
      let next := parentDir.dropLast
      if next.isEmpty then Except.error GoErr.parentNotFound
      else mergeWalkAux fs uj uy env fuel next

/-- Model of newMergedConf: search for a parent config starting at the
parent of the app dir, then merge the extension config into it under the
disjoint-key rule, listing the parent path first. -/
def newMergedConf (fs : FS) (uj uy : Unmarshaller) (extConf : conf)
    (configPath : GoPath) (appDir : GoPath) (env : String) :
    Except GoErr (List GoPath × conf) :=
  match mergeWalkAux fs uj uy env (appDir.dropLast.length + 1) appDir.dropLast with
  | Except.error e => Except.error e
  | Except.ok (parentPath, c) =>
    match c.extend extConf with
    | Except.error e => Except.error e
    | Except.ok c2 => Except.ok ([parentPath, configPath], c2.refreshKeys)

/-- Model of newConf: load the single config, reject simultaneous extend
and merge, dispatch to the extended or merged constructor, and otherwise
look for self-declared extensions in the config itself. -/
def newConf (fs : FS) (uj uy : Unmarshaller) (pfx : String) (appDir : GoPath)
    (env : String) (extendDirs : List GoPath) (mergeFlag : Bool) :
    Except GoErr (List GoPath × conf) :=
  match newSingleConf fs uj uy appDir env with
  | Except.error e => Except.error e
  | Except.ok (configPaths, c) =>
    if !extendDirs.isEmpty && mergeFlag then Except.error GoErr.notImplemented
    else if !extendDirs.isEmpty then
      newExtendedConf fs uj uy c configPaths appDir env extendDirs
    else if mergeFlag && !configPaths.isEmpty then
      newMergedConf fs uj uy c (configPaths.headD []) appDir env
    else
      match c.Keys.find? (fun k => decide (k = keyPrefixExtensions pfx)) with
      | some key =>
        match mapGet c.Map (keyExtensionsDir pfx) with
        | none => Except.error (GoErr.missingKey (keyExtensionsDir pfx))
        | some extDir =>
          match mapGet c.Map key with
          | none => Except.error (GoErr.missingKey key)
          | some extensions =>
            newExtendedConf fs uj uy c configPaths appDir env
              ((extensions.splitOn ",").map
                (fun extension => relComps extDir ++ relComps extension))
      | none => Except.ok (configPaths, c)

/-- Model of filepath.Match restricted to the two glob patterns used by
getEnvs: both consist of a literal, a single star and a literal, and on such
patterns Match accepts exactly the names made of the literal parts around
any run of characters (base names contain no separator). -/
def singleStarMatch (pre suf : String) (name : String) : Bool :=
  pre.data.isPrefixOf name.data &&
    suf.data.isSuffixOf (name.data.drop pre.data.length)

/-- Length of the leading run of word or hyphen characters, for the second
piece of the environment capture group. -/
def wordHyphenRun : List Char → Nat
  | [] => 0
  | c :: cs => if isWordChar c || c = '-' then wordHyphenRun cs + 1 else 0

/-- One attempt of the environment extraction pattern
config dot word-class-plus word-or-hyphen-star dot json
at a fixed position: the literal head, then both greedy pieces of the
capture group in backtracking preference order, then the literal tail.
Returns the capture. -/
def envCapAt (cs : List Char) : Option (List Char) :=
  if ("config.").data.isPrefixOf cs then
    let rest := cs.drop 7
    (descRange 1 (wordRun rest)).findSome? fun a =>
      let r1 := rest.drop a
      (descRange 0 (wordHyphenRun r1)).findSome? fun b =>
        if (".json").data.isPrefixOf (r1.drop b) then some (rest.take (a + b))
        else none
  else none

/-- Leftmost match of the environment extraction pattern: scan positions
left to right, taking the first position with a match. -/
def findEnvSubmatch : List Char → Option (List Char)
  | [] => none
  | c :: rest =>
    match envCapAt (c :: rest) with
    | some cap => some cap
    | none => findEnvSubmatch rest

/-- Model of getEnvs: glob the app dir for the structured config naming
pattern (the sample flag selects the sample-prefixed pattern), extract the
environment from each matching base name, and re-attach the sample marker
for sample files. Glob output is in sorted order because the directory
listing is sorted. The Go function can only return an error for a malformed
glob pattern, which these fixed patterns are not. -/
def getEnvs (fs : FS) (appDir : GoPath) (samples : Bool) : List String :=
  let pat := if samples then "sample.config." else "config."
  let globbed := (sortStrings (fs.baseNames appDir)).filter (singleStarMatch pat ".json")
  globbed.filterMap (fun baseName =>
    match findEnvSubmatch baseName.data with
    | some env =>
      some (if ("sample.").data.isPrefixOf baseName.data
            then "sample." ++ String.mk env else String.mk env)
    | none => none)

def ujUnused : Unmarshaller := fun _ => Except.error "unused"

def fsT : FS :=
  FS.mk [["app"]] [(["app", ".env"], "APP_FOO=foo\nAPP_BAR=bar\n"), (["app", "config.json"], "x")]

def fsE : FS :=
  FS.mk [["app"]] [(["app","config.dev.json"], "a"), (["app","config.prod.json"], "b"),
    (["app","sample.config.dev.json"], "c")]

def fsE2 : FS :=
  FS.mk [["app"]] [(["app","config.dev.json"],"a"), (["app","config.dev-x.json"],"b"),
    (["app","config.config.dev.json"],"c")]

def fsM : FS :=
  FS.mk [["a"],["a","b"]] [(["a",".env"], "P=1\n"), (["a","b",".env"], "Q=2\n")]

/-- Well-formedness of a key for the round-trip statements: nonempty and
made of word characters only. -/
def goodKey (k : String) : Prop :=
  k.data ≠ [] ∧ ∀ c ∈ k.data, isWordChar c = true

/-- An edge character of a value is acceptable when it is neither
whitespace nor a double quote (vacuously for the absent edge of an empty
value). -/
def edgeOk (o : Option Char) : Bool :=
  match o with
  | none => true
  | some c => !isGoSpace c && !(c = dquote)

/-- Well-formedness of a value for the round-trip statements: nonempty, no
newline, no leading or trailing whitespace and no leading or trailing
double quote. -/
def goodVal (v : String) : Prop :=
  v.data ≠ [] ∧ (∀ c ∈ v.data, ¬c = '\n') ∧
  edgeOk v.data.head? = true ∧ edgeOk v.data.getLast? = true

/-- Well-formedness of a key value pair. -/
def goodPair (e : String × String) : Prop := goodKey e.1 ∧ goodVal e.2

instance : DecidablePred goodKey := fun k => by unfold goodKey; infer_instance

instance : DecidablePred goodVal := fun v => by unfold goodVal; infer_instance

instance : DecidablePred goodPair := fun e => by unfold goodPair; infer_instance

/-- Rendering of key value pairs as line codec text, one line per pair. -/
def renderChars : List (String × String) → List Char
  | [] => []
  | e :: rest => e.1.data ++ '=' :: (e.2.data ++ '\n' :: renderChars rest)

/-- Rendering of key value pairs as a string. -/
def renderPairs (l : List (String × String)) : String := String.mk (renderChars l)

/-- The Keys invariant of the ordered store: Keys is the sorted key list of
the map. -/
def keysInv (c : conf) : Prop :=
  c.Keys = sortStrings (c.Map.map (fun e => e.1))

/-- Ascending sortedness of a string list, adjacent-pairwise. -/
def isSortedAsc : List String → Bool
  | [] => true
  | [_] => true
  | a :: b :: rest => strLe a b && isSortedAsc (b :: rest)

/-- The candidate list the Loader claim describes: for each format in the
precedence order line codec, shell suffix, JSON, YAML the
environment-specific name (absent for the bare line codec format), with the
environment-less fallback exactly for dev. -/
def candidatePaths (appDir : GoPath) (env : String) : List GoPath :=
  (if env = EnvDev then [appDir ++ [configFileName "" FileTypeENV]] else []) ++
  ([appDir ++ [configFileName env FileTypeSH]] ++
   (if env = EnvDev then [appDir ++ [configFileName "" FileTypeSH]] else [])) ++
  ([appDir ++ [configFileName env FileTypeJSON]] ++
   (if env = EnvDev then [appDir ++ [configFileName "" FileTypeJSON]] else [])) ++
  ([appDir ++ [configFileName env FileTypeYAML]] ++
   (if env = EnvDev then [appDir ++ [configFileName "" FileTypeYAML]] else []))

/-- The directories the merge walk visits, written independently of the
walk: the starting directory, then parents one level at a time, stopping
before the level that would be the root or empty. Fuel as in mergeWalkAux. -/
def ancestorChainAux : Nat → GoPath → List GoPath
  | 0, _ => []
  | fuel + 1, d =>
    d :: (if d.dropLast.isEmpty then [] else ancestorChainAux fuel d.dropLast)

/-- The directories the merge walk visits, with enough fuel. -/
def ancestorChain (d : GoPath) : List GoPath :=
  ancestorChainAux (d.length + 1) d

/-- Value of the last occurrence of a key in a pair list. -/
def lastVal (l : List (String × String)) (k : String) : Option String :=
  ((l.filter (fun e => decide (e.1 = k))).getLast?).map (fun e => e.2)

/-- The entries of a store read back through its key list, the shape
MarshalENV serializes. -/
def pairsOf (c : conf) : List (String × String) :=
  c.Keys.map (fun k => (k, (mapGet c.Map k).getD ""))

/-- A filesystem with an existing app dir and no files at all. -/
def fsC4 : FS := FS.mk [["app"]] []

/-- The enumeration scenario directory plus files that match no pattern. -/
def fsE3 : FS :=
  FS.mk [["app"]] [(["app", "config.dev.json"], "a"),
    (["app", "config.prod.json"], "b"), (["app", "sample.config.dev.json"], "c"),
    (["app", "README.md"], "d"), (["app", "config..json"], "e"),
    (["app", "notes.txt"], "f")]

theorem regexSpace_isGoSpace {c : Char} (h : isRegexSpace c = true) :
    isGoSpace c = true := by
  simp only [isRegexSpace, Bool.or_eq_true, decide_eq_true_eq, or_assoc] at h
  rcases h with h1 | h1 | h1 | h1 | h1 <;> subst h1 <;> decide

theorem wordChar_not_regexSpace {c : Char} (h : isWordChar c = true) :
    isRegexSpace c = false := by
  cases hrs : isRegexSpace c
  · rfl
  · simp only [isRegexSpace, Bool.or_eq_true, decide_eq_true_eq, or_assoc] at hrs
    rcases hrs with h1 | h1 | h1 | h1 | h1 <;> subst h1 <;> exact absurd h (by decide)

theorem wordChar_not_goSpace {c : Char} (h : isWordChar c = true) :
    isGoSpace c = false := by
  cases hgs : isGoSpace c
  · rfl
  · simp only [isGoSpace, Bool.or_eq_true, decide_eq_true_eq, or_assoc] at hgs
    rcases hgs with h1 | h1 | h1 | h1 | h1 | h1 | h1 | h1 | h1 | h1 | h1 | h1 |
      h1 | h1 | h1 | h1 | h1 | h1 | h1 | h1 | h1 | h1 | h1 | h1 | h1 <;>
      subst h1 <;> exact absurd h (by decide)

theorem wordChar_ne_eqsign {c : Char} (h : isWordChar c = true) : ¬c = '=' := by
  intro he; subst he; exact absurd h (by decide)

theorem wordChar_ne_newline {c : Char} (h : isWordChar c = true) : ¬c = '\n' := by
  intro he; subst he; exact absurd h (by decide)

theorem wordChar_ne_dquote {c : Char} (h : isWordChar c = true) : ¬c = dquote := by
  intro he; subst he; exact absurd h (by decide)

theorem not_regexSpace_of_not_goSpace {c : Char} (h : isGoSpace c = false) :
    isRegexSpace c = false := by
  cases hrs : isRegexSpace c
  · rfl
  · rw [regexSpace_isGoSpace hrs] at h; exact absurd h (by decide)

theorem findSome?_singleton {α : Type} {f : Nat → Option α} {a : Nat} :
    [a].findSome? f = f a := by
  cases h : f a <;> simp [List.findSome?_cons, h]

theorem descRange_cons (lo hi : Nat) (h : lo ≤ hi) :
    ∃ t, descRange lo hi = hi :: t := by
  unfold descRange
  have h1 : hi + 1 - lo = (hi - lo) + 1 := by omega
  rw [h1, List.range_succ_eq_map, List.map_cons, Nat.sub_zero]
  exact ⟨_, rfl⟩

theorem descRange_cons_of_lt (lo hi : Nat) (h : lo < hi) :
    descRange lo hi = hi :: descRange lo (hi - 1) := by
  unfold descRange
  have h1 : hi + 1 - lo = (hi - lo) + 1 := by omega
  have h2 : hi - lo = (hi - 1) + 1 - lo := by omega
  rw [h1, List.range_succ_eq_map, List.map_cons, Nat.sub_zero, List.map_map, ← h2]
  congr 1
  apply List.map_congr_left
  intro i _
  simp only [Function.comp_apply]
  omega

theorem findSome?_descRange_top {α : Type} {f : Nat → Option α} {b : α} (lo hi : Nat)
    (hle : lo ≤ hi) (h : f hi = some b) : (descRange lo hi).findSome? f = some b := by
  obtain ⟨t, ht⟩ := descRange_cons lo hi hle
  rw [ht]
  simp [List.findSome?_cons, h]

theorem findSome?_descRange_second {α : Type} {f : Nat → Option α} {b : α} (n : Nat)
    (h1 : 1 ≤ n) (hn : f n = none) (hs : f (n - 1) = some b) :
    (descRange 0 n).findSome? f = some b := by
  rw [descRange_cons_of_lt 0 n (by omega)]
  rw [List.findSome?_cons, hn]
  exact findSome?_descRange_top 0 (n - 1) (by omega) hs

theorem wsRun_cons_false {c : Char} {cs : List Char} (h : isRegexSpace c = false) :
    wsRun (c :: cs) = 0 := by
  simp [wsRun, h]

theorem wsRun_cons_true {c : Char} {cs : List Char} (h : isRegexSpace c = true) :
    wsRun (c :: cs) = wsRun cs + 1 := by
  simp [wsRun, h]

theorem wordRun_cons_false {c : Char} {cs : List Char} (h : isWordChar c = false) :
    wordRun (c :: cs) = 0 := by
  simp [wordRun, h]

theorem wordRun_cons_true {c : Char} {cs : List Char} (h : isWordChar c = true) :
    wordRun (c :: cs) = wordRun cs + 1 := by
  simp [wordRun, h]

theorem wordRun_append_word {k cs : List Char} (h : ∀ c ∈ k, isWordChar c = true) :
    wordRun (k ++ cs) = k.length + wordRun cs := by
  induction k with
  | nil => simp
  | cons a t ih =>
    have ha : isWordChar a = true := h a (by simp)
    have ht : ∀ c ∈ t, isWordChar c = true := fun c hc => h c (by simp [hc])
    rw [List.cons_append, wordRun_cons_true ha, ih ht, List.length_cons]
    omega

theorem dotRun_cons_stop {cs : List Char} : dotRun ('\n' :: cs) = 0 := by
  simp [dotRun]

theorem dotRun_cons_true {c : Char} {cs : List Char} (h : ¬c = '\n') :
    dotRun (c :: cs) = dotRun cs + 1 := by
  simp [dotRun, h]

theorem dotRun_append_stop {v rest : List Char} (h : ∀ c ∈ v, ¬c = '\n') :
    dotRun (v ++ '\n' :: rest) = v.length := by
  induction v with
  | nil => simp [dotRun]
  | cons a t ih =>
    have ha : ¬a = '\n' := h a (by simp)
    have ht : ∀ c ∈ t, ¬c = '\n' := fun c hc => h c (by simp [hc])
    rw [List.cons_append, dotRun_cons_true ha, ih ht, List.length_cons]

theorem dotRun_eq_length {v : List Char} (h : ∀ c ∈ v, ¬c = '\n') :
    dotRun v = v.length := by
  induction v with
  | nil => rfl
  | cons a t ih =>
    have ha : ¬a = '\n' := h a (by simp)
    have ht : ∀ c ∈ t, ¬c = '\n' := fun c hc => h c (by simp [hc])
    rw [dotRun_cons_true ha, ih ht, List.length_cons]

theorem wsRun_le_length (l : List Char) : wsRun l ≤ l.length := by
  induction l with
  | nil => simp [wsRun]
  | cons a t ih =>
    by_cases h : isRegexSpace a = true
    · rw [wsRun_cons_true h]; simp; omega
    · rw [wsRun_cons_false (by simpa using h)]; simp

theorem allSpace_of_wsRun_eq_length {l : List Char} (h : wsRun l = l.length) :
    ∀ c ∈ l, isRegexSpace c = true := by
  induction l with
  | nil => simp
  | cons a t ih =>
    intro c hc
    by_cases ha : isRegexSpace a = true
    · rw [wsRun_cons_true ha] at h
      simp only [List.length_cons] at h
      rcases List.mem_cons.mp hc with h1 | h1
      · subst h1; exact ha
      · exact ih (by omega) c h1
    · rw [wsRun_cons_false (by simpa using ha)] at h
      simp at h

theorem matchFrom_render {k v rest : List Char} (hk : k ≠ [])
    (hkw : ∀ c ∈ k, isWordChar c = true)
    (hv : v ≠ []) (hvn : ∀ c ∈ v, ¬c = '\n')
    (hvh : ∀ c, v.head? = some c → isRegexSpace c = false)
    (hrest : rest = [] ∨ ∃ r rs, rest = r :: rs ∧ isWordChar r = true) :
    matchFrom (k ++ '=' :: (v ++ '\n' :: rest)) =
      some (k.length + 1 + v.length + (if rest = [] then 1 else 0)) := by
  obtain ⟨kh, kt, rfl⟩ : ∃ h t, k = h :: t := by
    cases k with
    | nil => exact absurd rfl hk
    | cons h t => exact ⟨h, t, rfl⟩
  obtain ⟨vh, vt, rfl⟩ : ∃ h t, v = h :: t := by
    cases v with
    | nil => exact absurd rfl hv
    | cons h t => exact ⟨h, t, rfl⟩
  have hkh : isWordChar kh = true := hkw kh (by simp)
  have hvh' : isRegexSpace vh = false := hvh vh rfl
  unfold matchFrom
  rw [List.cons_append, wsRun_cons_false (wordChar_not_regexSpace hkh),
    ← List.cons_append]
  rw [show descRange 0 0 = [0] from rfl, findSome?_singleton]
  simp only [List.drop_zero]
  rw [wordRun_append_word hkw, wordRun_cons_false (by decide), Nat.add_zero]
  apply findSome?_descRange_top 1 (kh :: kt).length (by simp)
  simp only [List.drop_left]
  rw [wsRun_cons_false (by decide)]
  rw [show descRange 0 0 = [0] from rfl, findSome?_singleton]
  simp only [List.drop_zero, List.head?_cons, Option.some.injEq, if_pos rfl,
    List.tail_cons]
  rw [List.cons_append, wsRun_cons_false hvh', ← List.cons_append]
  rw [show descRange 0 0 = [0] from rfl, findSome?_singleton]
  simp only [List.drop_zero]
  rw [dotRun_append_stop hvn]
  apply findSome?_descRange_top 1 (vh :: vt).length (by simp)
  simp only [List.drop_left]
  rcases hrest with hre | ⟨r, rs, hre, hrw⟩
  · subst hre
    rw [show wsRun ['\n'] = 1 from by decide]
    apply findSome?_descRange_top 0 1 (by omega)
    simp only [List.drop_succ_cons, List.drop_zero, List.drop_nil, List.isEmpty_nil,
      if_true, Option.some.injEq, List.length_cons]
    omega
  · subst hre
    rw [wsRun_cons_true (by decide), wsRun_cons_false (wordChar_not_regexSpace hrw)]
    apply findSome?_descRange_second 1 (by omega)
    · simp only [List.drop_succ_cons, List.drop_zero, List.isEmpty_cons,
        List.head?_cons, Option.some.injEq]
      rw [if_neg (by simp), if_neg (by simp [wordChar_ne_newline hrw])]
    · simp only [Nat.sub_self, List.drop_zero, List.isEmpty_cons, List.head?_cons,
        Option.some.injEq, if_true]
      simp only [Option.some.injEq, List.length_cons]
      have hne : ¬(r :: rs = []) := by simp
      rw [if_neg hne, ite_self]
      simp only [Option.some.injEq]
      omega

theorem head_drop_wsRun {l : List Char} (h : wsRun l < l.length) :
    ∃ c t, l.drop (wsRun l) = c :: t ∧ isRegexSpace c = false := by
  induction l with
  | nil => simp at h
  | cons a t ih =>
    by_cases ha : isRegexSpace a = true
    · rw [wsRun_cons_true ha] at h ⊢
      simp only [List.length_cons] at h
      simp only [List.drop_succ_cons]
      exact ih (by omega)
    · have ha' : isRegexSpace a = false := by simpa using ha
      rw [wsRun_cons_false ha']
      exact ⟨a, t, rfl, ha'⟩

theorem matchFrom_single {k v : List Char} (hk : k ≠ [])
    (hkw : ∀ c ∈ k, isWordChar c = true)
    (hv : v ≠ []) (hvn : ∀ c ∈ v, ¬c = '\n') :
    matchFrom (k ++ '=' :: v) = some (k.length + 1 + v.length) := by
  obtain ⟨kh, kt, rfl⟩ : ∃ h t, k = h :: t := by
    cases k with
    | nil => exact absurd rfl hk
    | cons h t => exact ⟨h, t, rfl⟩
  have hkh : isWordChar kh = true := hkw kh (by simp)
  have hv1 : 1 ≤ v.length := by
    cases v with
    | nil => exact absurd rfl hv
    | cons a t => simp
  unfold matchFrom
  rw [List.cons_append, wsRun_cons_false (wordChar_not_regexSpace hkh),
    ← List.cons_append]
  rw [show descRange 0 0 = [0] from rfl, findSome?_singleton]
  simp only [List.drop_zero]
  rw [wordRun_append_word hkw, wordRun_cons_false (by decide), Nat.add_zero]
  apply findSome?_descRange_top 1 (kh :: kt).length (by simp)
  simp only [List.drop_left]
  rw [wsRun_cons_false (by decide)]
  rw [show descRange 0 0 = [0] from rfl, findSome?_singleton]
  simp only [List.drop_zero, List.head?_cons, Option.some.injEq, if_pos rfl,
    List.tail_cons]
  have hwle : wsRun v ≤ v.length := wsRun_le_length v
  rcases Nat.lt_or_ge (wsRun v) v.length with hlt | hge
  · -- the value has a non-whitespace character: the dot-plus piece takes
    -- everything from there to the end
    obtain ⟨c, t, hct, hcs⟩ := head_drop_wsRun hlt
    apply findSome?_descRange_top 0 (wsRun v) (by omega)
    have hdot : dotRun (v.drop (wsRun v)) = v.length - wsRun v := by
      rw [dotRun_eq_length]
      · simp
      · intro c' hc'
        exact hvn c' (List.mem_of_mem_drop hc')
    rw [hdot]
    apply findSome?_descRange_top 1 (v.length - wsRun v) (by omega)
    have hlen5 : v.length - wsRun v = (v.drop (wsRun v)).length := by
      simp [List.length_drop]
    rw [hlen5]
    simp only [List.drop_length, wsRun]
    rw [show descRange 0 0 = [0] from rfl, findSome?_singleton]
    simp only [List.drop_nil, List.isEmpty_nil, if_true, Option.some.injEq,
      List.length_cons, List.length_drop]
    omega
  · have heq : wsRun v = v.length := Nat.le_antisymm hwle hge
    rw [heq]
    apply findSome?_descRange_second v.length hv1
    · simp only [List.drop_length, dotRun]
      rw [show descRange 1 0 = [] from rfl]
      exact List.findSome?_nil
    · have hlen1 : (v.drop (v.length - 1)).length = 1 := by
        simp only [List.length_drop]
        omega
      obtain ⟨c, hc⟩ := List.length_eq_one.mp hlen1
      have hcv : c ∈ v := by
        have hmem : c ∈ v.drop (v.length - 1) := by simp [hc]
        exact List.mem_of_mem_drop hmem
      simp only [hc]
      simp only [dotRun_cons_true (hvn c hcv)]
      simp only [dotRun, Nat.zero_add]
      rw [show descRange 1 1 = [1] from rfl, findSome?_singleton]
      simp only [List.drop_succ_cons, List.drop_nil, wsRun]
      rw [show descRange 0 0 = [0] from rfl, findSome?_singleton]
      simp only [List.drop_nil, List.isEmpty_nil, if_true, Option.some.injEq,
        List.length_cons]
      omega

theorem ne_newline_of_not_goSpace {c : Char} (h : isGoSpace c = false) : ¬c = '\n' := by
  intro he; subst he; exact absurd h (by decide)

theorem cutEq_word_key {k v : List Char} (hkw : ∀ c ∈ k, ¬c = '=') :
    cutEq (k ++ '=' :: v) = some (k, v) := by
  induction k with
  | nil => simp [cutEq]
  | cons a t ih =>
    have ha := hkw a (by simp)
    have ht : ∀ c ∈ t, ¬c = '=' := fun c hc => hkw c (by simp [hc])
    simp [cutEq, ha, ih ht]

theorem dropWhile_eq_self_of_head {p : Char → Bool} {l : List Char}
    (h : ∀ c, l.head? = some c → p c = false) : l.dropWhile p = l := by
  cases l with
  | nil => rfl
  | cons a t =>
    rw [List.dropWhile_cons, h a rfl]
    simp

theorem goTrimSpace_eq_self {l : List Char}
    (hh : ∀ c, l.head? = some c → isGoSpace c = false)
    (hl : ∀ c, l.getLast? = some c → isGoSpace c = false) :
    goTrimSpace l = l := by
  unfold goTrimSpace dropWhileEnd
  rw [dropWhile_eq_self_of_head hh]
  rw [dropWhile_eq_self_of_head
    (fun c hc => hl c (by rwa [List.head?_reverse] at hc))]
  exact List.reverse_reverse l

theorem goTrimSpace_word {l : List Char} (h : ∀ c ∈ l, isWordChar c = true) :
    goTrimSpace l = l := by
  apply goTrimSpace_eq_self
  · intro c hc
    cases l with
    | nil => simp at hc
    | cons a t =>
      simp only [List.head?_cons, Option.some.injEq] at hc
      subst hc
      exact wordChar_not_goSpace (h a (by simp))
  · intro c hc
    have hcm : c ∈ l := by
      have h1 := List.getLast?_eq_head?_reverse.symm ▸ hc
      have h2 : c ∈ l.reverse := by
        cases hrev : l.reverse with
        | nil => rw [hrev] at h1; simp [List.getLast?_eq_head?_reverse, hrev] at hc
        | cons a t =>
          rw [List.getLast?_eq_head?_reverse, hrev] at hc
          simp only [List.head?_cons, Option.some.injEq] at hc
          subst hc
          simp [hrev]
      simpa using h2
    exact wordChar_not_goSpace (h c hcm)

theorem goTrimSpace_val_newline {v : List Char} (hv : v ≠ [])
    (hh : ∀ c, v.head? = some c → isGoSpace c = false)
    (hl : ∀ c, v.getLast? = some c → isGoSpace c = false) :
    goTrimSpace (v ++ ['\n']) = v := by
  obtain ⟨vh, vt, rfl⟩ : ∃ h t, v = h :: t := by
    cases v with
    | nil => exact absurd rfl hv
    | cons h t => exact ⟨h, t, rfl⟩
  unfold goTrimSpace dropWhileEnd
  rw [List.cons_append, List.dropWhile_cons, hh vh rfl]
  simp only [Bool.false_eq_true, if_false, ← List.cons_append]
  rw [List.reverse_append]
  simp only [List.reverse_cons, List.reverse_nil, List.nil_append,
    List.singleton_append]
  rw [List.dropWhile_cons]
  rw [show isGoSpace '\n' = true from by decide]
  simp only [if_true]
  rw [dropWhile_eq_self_of_head
    (fun c hc => hl c (by
      rw [← List.reverse_cons] at hc
      rwa [List.head?_reverse] at hc))]
  simp

theorem trimLeadQuote_no {l : List Char} (h : ¬l.head? = some dquote) :
    trimLeadQuote l = l := by
  cases l with
  | nil => rfl
  | cons a t =>
    have ha : ¬a = dquote := by simpa using h
    simp [trimLeadQuote, ha]

theorem trimLeadQuote_cons {t : List Char} : trimLeadQuote (dquote :: t) = t := by
  simp [trimLeadQuote]

theorem trimTrailQuote_no {l : List Char} (h : ¬l.getLast? = some dquote) :
    trimTrailQuote l = l := by
  unfold trimTrailQuote
  rcases hrev : l.reverse with _ | ⟨c, rest⟩
  · rfl
  · have hc : ¬c = dquote := by
      rw [List.getLast?_eq_head?_reverse, hrev] at h
      simpa using h
    simp [hc]

theorem trimTrailQuote_concat (x : List Char) :
    trimTrailQuote (x ++ [dquote]) = x := by
  unfold trimTrailQuote
  rw [List.reverse_append]
  simp

theorem findAllAux_nil (fuel : Nat) : findAllAux fuel [] = [] := by
  cases fuel <;> rfl

theorem nextLine_newline (rest : List Char) : nextLine ('\n' :: rest) = rest := by
  simp [nextLine]

theorem string_eta (s : String) : String.mk s.data = s := rfl

theorem renderChars_cons (e : String × String) (rest : List (String × String)) :
    renderChars (e :: rest) = e.1.data ++ '=' :: (e.2.data ++ '\n' :: renderChars rest) := rfl

theorem edgeOk_some {c : Char} (h : edgeOk (some c) = true) :
    isGoSpace c = false ∧ ¬c = dquote := by
  simp only [edgeOk, Bool.and_eq_true, Bool.not_eq_true', decide_eq_false_iff_not] at h
  exact h

theorem goodVal_head {v : String} (hv : goodVal v) :
    ∀ c, v.data.head? = some c → isGoSpace c = false ∧ ¬c = dquote := by
  intro c hc
  have h := hv.2.2.1
  rw [hc] at h
  exact edgeOk_some h

theorem goodVal_last {v : String} (hv : goodVal v) :
    ∀ c, v.data.getLast? = some c → isGoSpace c = false ∧ ¬c = dquote := by
  intro c hc
  have h := hv.2.2.2
  rw [hc] at h
  exact edgeOk_some h

theorem goodVal_head_not_regexSpace {v : String} (hv : goodVal v) :
    ∀ c, v.data.head? = some c → isRegexSpace c = false :=
  fun c hc => not_regexSpace_of_not_goSpace (goodVal_head hv c hc).1

theorem envAssign_line {acc : List (String × String)} {k v : String}
    (hk : goodKey k) (hv : goodVal v) :
    envAssign acc (k.data ++ '=' :: v.data) = Except.ok (mapSet acc k v) := by
  unfold envAssign
  rw [cutEq_word_key (fun c hc => wordChar_ne_eqsign (hk.2 c hc))]
  change Except.ok (mapSet acc (String.mk (goTrimSpace k.data))
    (String.mk (trimTrailQuote (trimLeadQuote (goTrimSpace v.data))))) = _
  rw [goTrimSpace_word hk.2]
  rw [goTrimSpace_eq_self (fun c hc => (goodVal_head hv c hc).1)
    (fun c hc => (goodVal_last hv c hc).1)]
  rw [trimLeadQuote_no (fun hq => (goodVal_head hv dquote hq).2 rfl)]
  rw [trimTrailQuote_no (fun hq => (goodVal_last hv dquote hq).2 rfl)]

theorem envAssign_line_newline {acc : List (String × String)} {k v : String}
    (hk : goodKey k) (hv : goodVal v) :
    envAssign acc (k.data ++ '=' :: (v.data ++ ['\n'])) =
      Except.ok (mapSet acc k v) := by
  unfold envAssign
  rw [cutEq_word_key (fun c hc => wordChar_ne_eqsign (hk.2 c hc))]
  change Except.ok (mapSet acc (String.mk (goTrimSpace k.data))
    (String.mk (trimTrailQuote (trimLeadQuote (goTrimSpace (v.data ++ ['\n'])))))) = _
  rw [goTrimSpace_word hk.2]
  rw [goTrimSpace_val_newline hv.1 (fun c hc => (goodVal_head hv c hc).1)
    (fun c hc => (goodVal_last hv c hc).1)]
  rw [trimLeadQuote_no (fun hq => (goodVal_head hv dquote hq).2 rfl)]
  rw [trimTrailQuote_no (fun hq => (goodVal_last hv dquote hq).2 rfl)]

theorem findAllAux_match {f : Nat} {cs : List Char} {len : Nat} (h : cs ≠ [])
    (hm : matchFrom cs = some len) :
    findAllAux (f + 1) cs =
      if (cs.take len).getLast? = some '\n' then
        cs.take len :: findAllAux f (cs.drop len)
      else cs.take len :: findAllAux f (nextLine (cs.drop len)) := by
  obtain ⟨c, t, rfl⟩ : ∃ c t, cs = c :: t := by
    cases cs with
    | nil => exact absurd rfl h
    | cons c t => exact ⟨c, t, rfl⟩
  simp only [findAllAux, hm]

theorem foldlM_envAssign_render :
    ∀ (pairs : List (String × String)) (acc : List (String × String)) (fuel : Nat),
    (∀ e ∈ pairs, goodPair e) → (renderChars pairs).length < fuel →
    (findAllAux fuel (renderChars pairs)).foldlM envAssign acc =
      Except.ok (pairs.foldl (fun m e => mapSet m e.1 e.2) acc) := by
  intro pairs
  induction pairs with
  | nil =>
    intro acc fuel _ _
    rw [show renderChars [] = [] from rfl, findAllAux_nil]
    rfl
  | cons e rest ih =>
    intro acc fuel hgood hfuel
    obtain ⟨k, v⟩ := e
    have hk : goodKey k := (hgood (k, v) (by simp)).1
    have hv : goodVal v := (hgood (k, v) (by simp)).2
    have hrest : ∀ e ∈ rest, goodPair e := fun e he => hgood e (by simp [he])
    have hkne : k.data ≠ [] := hk.1
    have hvne : v.data ≠ [] := hv.1
    have hcs : k.data ++ '=' :: (v.data ++ '\n' :: renderChars rest) ≠ [] := by
      obtain ⟨kh, kt, hkd⟩ : ∃ h t, k.data = h :: t := by
        cases hkd : k.data with
        | nil => exact absurd hkd hkne
        | cons h t => exact ⟨h, t, rfl⟩
      rw [hkd]
      simp
    cases fuel with
    | zero => omega
    | succ f =>
      rw [renderChars_cons] at hfuel ⊢
      cases rest with
      | nil =>
        have hm : matchFrom (k.data ++ '=' :: (v.data ++ '\n' :: renderChars [])) =
            some ((k.data ++ '=' :: (v.data ++ '\n' :: renderChars [])).length) := by
          rw [@matchFrom_render k.data v.data (renderChars []) hkne hk.2 hvne
            hv.2.1 (goodVal_head_not_regexSpace hv) (Or.inl rfl)]
          simp only [renderChars, Option.some.injEq, List.length_append,
            List.length_cons, List.length_nil, List.append_nil, if_true]
          omega
        rw [findAllAux_match hcs hm, List.take_length, List.drop_length,
          findAllAux_nil]
        have harr : k.data ++ '=' :: (v.data ++ '\n' :: renderChars []) =
            (k.data ++ '=' :: v.data) ++ ['\n'] := by
          simp [renderChars]
        rw [harr, List.getLast?_concat]
        simp only [eq_self_iff_true, if_true, List.foldlM_cons, List.foldlM_nil,
          List.append_assoc, List.cons_append, List.nil_append]
        rw [envAssign_line_newline hk hv]
        simp only [List.foldl_cons, List.foldl_nil]
        rfl
      | cons e' rest' =>
        obtain ⟨k', v'⟩ := e'
        have hk' : goodKey k' := (hrest (k', v') (by simp)).1
        obtain ⟨kh', kt', hkd'⟩ : ∃ h t, k'.data = h :: t := by
          cases hkd' : k'.data with
          | nil => exact absurd hkd' hk'.1
          | cons h t => exact ⟨h, t, rfl⟩
        have hrshape : renderChars ((k', v') :: rest') =
            kh' :: (kt' ++ '=' :: (v'.data ++ '\n' :: renderChars rest')) := by
          rw [renderChars_cons, hkd']
          rfl
        have hm := @matchFrom_render k.data v.data
          (renderChars ((k', v') :: rest'))
          hkne hk.2 hvne hv.2.1 (goodVal_head_not_regexSpace hv)
          (Or.inr ⟨kh', kt' ++ '=' :: (v'.data ++ '\n' :: renderChars rest'),
            hrshape, hk'.2 kh' (by rw [hkd']; simp)⟩)
        have hrne : ¬renderChars ((k', v') :: rest') = [] := by
          rw [hrshape]; simp
        rw [if_neg hrne] at hm
        rw [findAllAux_match hcs hm]
        have harr : k.data ++ '=' :: (v.data ++ '\n' :: renderChars ((k', v') :: rest')) =
            (k.data ++ '=' :: v.data) ++ ('\n' :: renderChars ((k', v') :: rest')) := by
          simp
        have hlen : k.data.length + 1 + v.data.length + 0 =
            (k.data ++ '=' :: v.data).length := by
          simp only [List.length_append, List.length_cons]
          omega
        rw [harr, hlen, List.take_left, List.drop_left]
        obtain ⟨lc, hlc⟩ : ∃ lc, v.data.getLast? = some lc := by
          cases hg : v.data.getLast? with
          | none => exact absurd (List.getLast?_eq_none_iff.mp hg) hvne
          | some lc => exact ⟨lc, rfl⟩
        have hlast : (k.data ++ '=' :: v.data).getLast? = some lc := by
          rw [List.getLast?_append]
          rw [show ('=' :: v.data).getLast? = v.data.getLast? from by
            cases hd : v.data with
            | nil => exact absurd hd hvne
            | cons a t => exact List.getLast?_cons_cons]
          rw [hlc]
          rfl
        have hlcn : ¬lc = '\n' := ne_newline_of_not_goSpace (goodVal_last hv lc hlc).1
        rw [hlast]
        rw [if_neg (by simpa using hlcn)]
        rw [nextLine_newline, List.foldlM_cons, envAssign_line hk hv]
        have hfr : (renderChars ((k', v') :: rest')).length < f := by
          simp only [List.length_append, List.length_cons] at hfuel
          omega
        show (findAllAux f (renderChars ((k', v') :: rest'))).foldlM envAssign
            (mapSet acc k v) = _
        rw [ih (mapSet acc k v) f hrest hfr]
        rfl

theorem unmarshal_render {pairs : List (String × String)}
    (h : ∀ e ∈ pairs, goodPair e) :
    UnmarshalENV (renderPairs pairs) =
      Except.ok (pairs.foldl (fun m e => mapSet m e.1 e.2) []) := by
  unfold UnmarshalENV findAllMatches
  exact foldlM_envAssign_render pairs [] _ h (Nat.lt_succ_self _)

theorem mapGet_cons {a : String × String} {m : List (String × String)} {k : String} :
    mapGet (a :: m) k = if a.1 = k then some a.2 else mapGet m k := by
  by_cases h : a.1 = k <;> simp [mapGet, List.find?, h]

theorem mapGet_mapSet {m : List (String × String)} {k v : String} {k' : String} :
    mapGet (mapSet m k v) k' = if k' = k then some v else mapGet m k' := by
  induction m with
  | nil =>
    show mapGet [(k, v)] k' = _
    rw [mapGet_cons]
    by_cases h : k' = k
    · subst h; simp
    · rw [if_neg (fun he => h he.symm), if_neg h]
  | cons a t ih =>
    obtain ⟨ka, va⟩ := a
    by_cases h1 : ka = k
    · subst h1
      rw [show mapSet ((ka, va) :: t) ka v = (ka, v) :: t from by simp [mapSet]]
      rw [mapGet_cons]
      by_cases h2 : k' = ka
      · subst h2; simp
      · rw [if_neg (fun he => h2 he.symm), if_neg h2, mapGet_cons,
          if_neg (fun he => h2 he.symm)]
    · rw [show mapSet ((ka, va) :: t) k v = (ka, va) :: mapSet t k v from by
        simp [mapSet, h1]]
      rw [mapGet_cons]
      by_cases h2 : ka = k'
      · subst h2
        rw [if_pos rfl, if_neg h1, mapGet_cons, if_pos rfl]
      · rw [if_neg h2, ih, mapGet_cons, if_neg h2]

theorem mapSet_append {m : List (String × String)} {k v : String}
    (h : mapGet m k = none) : mapSet m k v = m ++ [(k, v)] := by
  induction m with
  | nil => rfl
  | cons a t ih =>
    rw [mapGet_cons] at h
    by_cases ha : a.1 = k
    · rw [if_pos ha] at h
      exact Option.noConfusion h
    · rw [if_neg ha] at h
      obtain ⟨ka, va⟩ := a
      simp only [mapSet, if_neg ha, List.cons_append]
      rw [ih h]

theorem mapGet_eq_none_iff {m : List (String × String)} {k : String} :
    mapGet m k = none ↔ ∀ e ∈ m, ¬e.1 = k := by
  simp [mapGet, List.find?_eq_none]

theorem mem_of_mapGet_eq_some {m : List (String × String)} {k v : String}
    (h : mapGet m k = some v) : (k, v) ∈ m := by
  unfold mapGet at h
  cases hf : m.find? (fun e => decide (e.1 = k)) with
  | none => rw [hf] at h; exact Option.noConfusion h
  | some e =>
    rw [hf] at h
    have hmem := List.mem_of_find?_eq_some hf
    have hkey : e.1 = k := by simpa using List.find?_some hf
    have hval : e.2 = v := by simpa using h
    have : e = (k, v) := by
      obtain ⟨e1, e2⟩ := e
      simp only at hkey hval
      rw [hkey, hval]
    rwa [this] at hmem

theorem mapGet_eq_some_of_mem {m : List (String × String)} {k v : String}
    (hnd : (m.map (fun e => e.1)).Nodup) (h : (k, v) ∈ m) :
    mapGet m k = some v := by
  induction m with
  | nil => simp at h
  | cons a t ih =>
    obtain ⟨ka, va⟩ := a
    simp only [List.map_cons, List.nodup_cons] at hnd
    rcases List.mem_cons.mp h with h1 | h1
    · rw [← h1, mapGet_cons]
      simp
    · have hka : ¬ka = k := by
        intro he
        apply hnd.1
        rw [he]
        exact List.mem_map.mpr ⟨(k, v), h1, rfl⟩
      rw [mapGet_cons, if_neg hka]
      exact ih hnd.2 h1

theorem mapGet_congr_perm {m1 m2 : List (String × String)}
    (hperm : m1.Perm m2) (hnd : (m1.map (fun e => e.1)).Nodup) (k : String) :
    mapGet m1 k = mapGet m2 k := by
  have hnd2 : (m2.map (fun e => e.1)).Nodup := (hperm.map (fun e => e.1)).nodup_iff.mp hnd
  cases h1 : mapGet m1 k with
  | some v =>
    exact (mapGet_eq_some_of_mem hnd2 (hperm.mem_iff.mp (mem_of_mapGet_eq_some h1))).symm
  | none =>
    cases h2 : mapGet m2 k with
    | none => rfl
    | some v =>
      have := hperm.mem_iff.mpr (mem_of_mapGet_eq_some h2)
      rw [mapGet_eq_none_iff] at h1
      exact absurd rfl (h1 (k, v) this)

theorem mapGet_append {m1 m2 : List (String × String)} {k : String} :
    mapGet (m1 ++ m2) k = (mapGet m1 k).or (mapGet m2 k) := by
  induction m1 with
  | nil => simp [mapGet]
  | cons a t ih =>
    rw [List.cons_append, mapGet_cons, mapGet_cons]
    by_cases h : a.1 = k
    · simp [h]
    · simp [h, ih]

theorem foldl_mapSet_eq_append :
    ∀ (pairs acc : List (String × String)),
    (pairs.map (fun e => e.1)).Nodup →
    (∀ e ∈ pairs, mapGet acc e.1 = none) →
    pairs.foldl (fun m e => mapSet m e.1 e.2) acc = acc ++ pairs := by
  intro pairs
  induction pairs with
  | nil =>
    intro acc _ _
    simp
  | cons e rest ih =>
    intro acc hnd hdis
    simp only [List.map_cons, List.nodup_cons] at hnd
    rw [List.foldl_cons, mapSet_append (hdis e (by simp))]
    rw [ih (acc ++ [e]) hnd.2 (fun e' he' => by
      rw [mapGet_append]
      rw [hdis e' (by simp [he'])]
      have hne : ¬e.1 = e'.1 := by
        intro hc
        exact hnd.1 (hc ▸ List.mem_map.mpr ⟨e', he', rfl⟩)
      rw [show mapGet [e] e'.1 = none from by
        rw [mapGet_cons, if_neg hne]; rfl]
      rfl)]
    simp

theorem getLast?_cons_of_ne_nil {α : Type} {a : α} {l : List α} (h : l ≠ []) :
    (a :: l).getLast? = l.getLast? := by
  cases l with
  | nil => exact absurd rfl h
  | cons b t => exact List.getLast?_cons_cons

theorem mapGet_foldl_not_mem :
    ∀ (pairs acc : List (String × String)) (k : String),
    (∀ e ∈ pairs, ¬e.1 = k) →
    mapGet (pairs.foldl (fun m e => mapSet m e.1 e.2) acc) k = mapGet acc k := by
  intro pairs
  induction pairs with
  | nil =>
    intro acc k _
    rfl
  | cons e rest ih =>
    intro acc k hn
    rw [List.foldl_cons, ih _ k (fun e' he' => hn e' (by simp [he']))]
    rw [mapGet_mapSet, if_neg (fun hc => hn e (by simp) hc.symm)]

theorem mapGet_foldl_last :
    ∀ (pairs acc : List (String × String)) (k : String),
    (∃ e ∈ pairs, e.1 = k) →
    mapGet (pairs.foldl (fun m e => mapSet m e.1 e.2) acc) k = lastVal pairs k := by
  intro pairs
  induction pairs with
  | nil =>
    intro acc k h
    simp at h
  | cons e rest ih =>
    intro acc k hex
    rw [List.foldl_cons]
    by_cases hrest : ∃ e' ∈ rest, e'.1 = k
    · rw [ih _ k hrest]
      obtain ⟨e', he', hk'⟩ := hrest
      have hfne : rest.filter (fun e => decide (e.1 = k)) ≠ [] :=
        List.ne_nil_of_mem (List.mem_filter.mpr ⟨he', by simp [hk']⟩)
      unfold lastVal
      rw [List.filter_cons]
      by_cases he : e.1 = k
      · rw [if_pos (by simp [he]), getLast?_cons_of_ne_nil hfne]
      · rw [if_neg (by simp [he])]
    · have he : e.1 = k := by
        rcases hex with ⟨e0, he0, hk0⟩
        rcases List.mem_cons.mp he0 with h1 | h1
        · rw [h1] at hk0; exact hk0
        · exact absurd ⟨e0, h1, hk0⟩ hrest
      rw [mapGet_foldl_not_mem rest _ k (fun e' h' hk => hrest ⟨e', h', hk⟩)]
      rw [mapGet_mapSet, if_pos he.symm]
      have hfe : rest.filter (fun e => decide (e.1 = k)) = [] := by
        rw [List.filter_eq_nil_iff]
        intro e' h'
        simp only [decide_eq_true_eq]
        exact fun hk => hrest ⟨e', h', hk⟩
      unfold lastVal
      rw [List.filter_cons, if_pos (by simp [he]), hfe]
      rfl

theorem matchFrom_some_eq_mem {cs : List Char} {len : Nat}
    (h : matchFrom cs = some len) : '=' ∈ cs.take len := by
  unfold matchFrom at h
  obtain ⟨k1, hk1m, h1⟩ := List.exists_of_findSome?_eq_some h
  obtain ⟨k2, hk2m, h2⟩ := List.exists_of_findSome?_eq_some h1
  obtain ⟨k3, hk3m, h3⟩ := List.exists_of_findSome?_eq_some h2
  simp only at h3
  by_cases hc : (((cs.drop k1).drop k2).drop k3).head? = some '='
  · rw [if_pos hc] at h3
    obtain ⟨k5, hk5m, h5⟩ := List.exists_of_findSome?_eq_some h3
    obtain ⟨k6, hk6m, h6⟩ := List.exists_of_findSome?_eq_some h5
    obtain ⟨k7, hk7m, h7⟩ := List.exists_of_findSome?_eq_some h6
    have hlen : len = k1 + k2 + k3 + 1 + k5 + k6 + k7 := by
      by_cases hc1 :
          ((((((cs.drop k1).drop k2).drop k3).tail.drop k5).drop k6).drop k7).isEmpty = true
      · rw [if_pos hc1] at h7
        exact (Option.some.inj h7).symm
      · rw [if_neg hc1] at h7
        by_cases hc2 :
            ((((((cs.drop k1).drop k2).drop k3).tail.drop k5).drop k6).drop k7).head? = some '\n'
        · rw [if_pos hc2] at h7
          exact (Option.some.inj h7).symm
        · rw [if_neg hc2] at h7
          exact Option.noConfusion h7
    have hdrop : ((cs.drop k1).drop k2).drop k3 = cs.drop (k1 + k2 + k3) := by
      rw [List.drop_drop, List.drop_drop]
      congr 1
      omega
    rw [hdrop] at hc
    have hget : cs[k1 + k2 + k3]? = some '=' := by
      rwa [← List.head?_drop]
    have hlt : k1 + k2 + k3 < len := by omega
    have htk : (cs.take len)[k1 + k2 + k3]? = some '=' := by
      rw [List.getElem?_take_of_lt hlt]
      exact hget
    exact List.getElem?_mem htk
  · rw [if_neg hc] at h3
    exact Option.noConfusion h3

theorem cutEq_isSome_of_mem {l : List Char} (h : '=' ∈ l) :
    ∃ p, cutEq l = some p := by
  induction l with
  | nil => simp at h
  | cons c rest ih =>
    by_cases hc : c = '='
    · subst hc
      exact ⟨([], rest), by simp [cutEq]⟩
    · have hmem : '=' ∈ rest := by
        rcases List.mem_cons.mp h with h1 | h1
        · exact absurd h1.symm hc
        · exact h1
      obtain ⟨p, hp⟩ := ih hmem
      exact ⟨(c :: p.1, p.2), by simp [cutEq, hc, hp]⟩

theorem foldlM_envAssign_ok :
    ∀ (lines : List (List Char)) (acc : List (String × String)),
    (∀ line ∈ lines, ∃ p, cutEq line = some p) →
    ∃ m, lines.foldlM envAssign acc = Except.ok m := by
  intro lines
  induction lines with
  | nil =>
    intro acc _
    exact ⟨acc, rfl⟩
  | cons line rest ih =>
    intro acc hall
    obtain ⟨p, hp⟩ := hall line (by simp)
    rw [List.foldlM_cons]
    rw [show envAssign acc line = Except.ok (mapSet acc (String.mk (goTrimSpace p.1))
        (String.mk (trimTrailQuote (trimLeadQuote (goTrimSpace p.2))))) from by
      unfold envAssign
      rw [hp]]
    obtain ⟨m, hm⟩ := ih _ (fun l hl => hall l (by simp [hl]))
    exact ⟨m, hm⟩

theorem findAllAux_mem_shape :
    ∀ (fuel : Nat) (cs line : List Char), line ∈ findAllAux fuel cs →
    ∃ cs' len, matchFrom cs' = some len ∧ line = cs'.take len := by
  intro fuel
  induction fuel with
  | zero =>
    intro cs line h
    simp [findAllAux] at h
  | succ f ih =>
    intro cs line h
    cases cs with
    | nil => simp [findAllAux] at h
    | cons c t =>
      rcases hm : matchFrom (c :: t) with _ | len
      · rw [show findAllAux (f + 1) (c :: t) = findAllAux f (nextLine (c :: t)) from by
          simp only [findAllAux, hm]] at h
        exact ih _ line h
      · rw [findAllAux_match (by simp) hm] at h
        by_cases hsp : ((c :: t).take len).getLast? = some '\n'
        · rw [if_pos hsp] at h
          rcases List.mem_cons.mp h with h1 | h1
          · exact ⟨c :: t, len, hm, h1⟩
          · exact ih _ line h1
        · rw [if_neg hsp] at h
          rcases List.mem_cons.mp h with h1 | h1
          · exact ⟨c :: t, len, hm, h1⟩
          · exact ih _ line h1

/-- C7: UnmarshalENV is total in its success behaviour: for every input it
returns a map and no error, because every line collected by the matching
pattern necessarily contains an equals separator, making the defensive
split-impossible error branch unreachable; non-matching lines are silently
ignored and never cause a parse failure. -/
theorem c7_unmarshal_total (b : String) : ∃ m, UnmarshalENV b = Except.ok m := by
  unfold UnmarshalENV
  apply foldlM_envAssign_ok
  intro line hline
  obtain ⟨cs', len, hm, hline'⟩ := findAllAux_mem_shape _ _ line hline
  subst hline'
  exact cutEq_isSome_of_mem (matchFrom_some_eq_mem hm)

/-- C10: when one line codec input contains several matching lines with the
same key, UnmarshalENV succeeds without any duplicate-key error and the
returned map holds the value of the last such line, later occurrences
silently overwriting earlier ones. -/
theorem c10_last_occurrence_wins (pairs : List (String × String))
    (hgood : ∀ e ∈ pairs, goodPair e) :
    ∃ m, UnmarshalENV (renderPairs pairs) = Except.ok m ∧
      ∀ k, (∃ e ∈ pairs, e.1 = k) → mapGet m k = lastVal pairs k := by
  refine ⟨_, unmarshal_render hgood, ?_⟩
  intro k hk
  exact mapGet_foldl_last pairs [] k hk

/-- Witness for C10 at the concrete duplicated input K=a, K=b. -/
theorem c10_witness :
    (∀ e ∈ [("K", "a"), ("K", "b")], goodPair e) ∧
    (∃ m, UnmarshalENV (renderPairs [("K", "a"), ("K", "b")]) = Except.ok m ∧
      ∀ k, (∃ e ∈ [("K", "a"), ("K", "b")], e.1 = k) →
        mapGet m k = lastVal [("K", "a"), ("K", "b")] k) :=
  ⟨by decide, c10_last_occurrence_wins _ (by decide)⟩

theorem trimLeadQuote_head {l : List Char} (h : l.head? = some dquote) :
    trimLeadQuote l = l.drop 1 := by
  cases l with
  | nil => exact Option.noConfusion h
  | cons a t =>
    have ha : a = dquote := by simpa using h
    subst ha
    simp [trimLeadQuote]

theorem trimTrailQuote_last {l : List Char} (h : l.getLast? = some dquote) :
    trimTrailQuote l = l.dropLast := by
  unfold trimTrailQuote
  rcases hrev : l.reverse with _ | ⟨c, rest⟩
  · rw [List.getLast?_eq_head?_reverse, hrev] at h
    exact Option.noConfusion h
  · have hc : c = dquote := by
      rw [List.getLast?_eq_head?_reverse, hrev] at h
      simpa using h
    subst hc
    show (if dquote = dquote then rest.reverse else l) = l.dropLast
    rw [if_pos rfl]
    have hl : l = rest.reverse ++ [dquote] := by
      have hcongr := congrArg List.reverse hrev
      simpa using hcongr
    rw [hl]
    simp

theorem getLast?_drop_one {l : List Char} (h : 2 ≤ l.length) :
    (l.drop 1).getLast? = l.getLast? := by
  cases l with
  | nil => simp at h
  | cons a t =>
    cases t with
    | nil => simp at h
    | cons b r =>
      rw [List.drop_succ_cons, List.drop_zero]
      exact List.getLast?_cons_cons.symm

theorem regexSpace_not_wordChar {c : Char} (h : isRegexSpace c = true) :
    isWordChar c = false := by
  cases hwc : isWordChar c
  · rfl
  · rw [wordChar_not_regexSpace hwc] at h
    exact Bool.noConfusion h

theorem regexSpace_ne_eqsign {c : Char} (h : isRegexSpace c = true) : ¬c = '=' := by
  intro he
  subst he
  exact absurd h (by decide)

theorem wsRun_append_space {ws l : List Char}
    (h : ∀ c ∈ ws, isRegexSpace c = true) :
    wsRun (ws ++ l) = ws.length + wsRun l := by
  induction ws with
  | nil => simp
  | cons a t ih =>
    have ha := h a (by simp)
    have ht : ∀ c ∈ t, isRegexSpace c = true := fun c hc => h c (by simp [hc])
    rw [List.cons_append, wsRun_cons_true ha, ih ht, List.length_cons]
    omega

theorem wordRun_space_eq {ws v : List Char}
    (h : ∀ c ∈ ws, isRegexSpace c = true) :
    wordRun (ws ++ '=' :: v) = 0 := by
  cases ws with
  | nil => exact wordRun_cons_false (by decide)
  | cons a t =>
    rw [List.cons_append]
    exact wordRun_cons_false (regexSpace_not_wordChar (h a (by simp)))

theorem dropWhile_append_all {p : Char → Bool} {ws l : List Char}
    (h : ∀ c ∈ ws, p c = true) : (ws ++ l).dropWhile p = l.dropWhile p := by
  induction ws with
  | nil => rfl
  | cons a t ih =>
    rw [List.cons_append, List.dropWhile_cons, h a (by simp)]
    simp only [if_true]
    exact ih (fun c hc => h c (by simp [hc]))

theorem goTrimSpace_pad {ws1 ws2 l : List Char}
    (hs1 : ∀ c ∈ ws1, isGoSpace c = true) (hs2 : ∀ c ∈ ws2, isGoSpace c = true)
    (hne : l ≠ [])
    (hh : ∀ c, l.head? = some c → isGoSpace c = false)
    (hl : ∀ c, l.getLast? = some c → isGoSpace c = false) :
    goTrimSpace (ws1 ++ l ++ ws2) = l := by
  obtain ⟨lh, lt, rfl⟩ : ∃ h t, l = h :: t := by
    cases l with
    | nil => exact absurd rfl hne
    | cons h t => exact ⟨h, t, rfl⟩
  unfold goTrimSpace dropWhileEnd
  rw [List.append_assoc, dropWhile_append_all hs1, List.cons_append,
    List.dropWhile_cons, hh lh rfl]
  simp only [Bool.false_eq_true, if_false]
  rw [← List.cons_append, List.reverse_append,
    dropWhile_append_all (fun c hc => hs2 c (by simpa using hc))]
  rw [dropWhile_eq_self_of_head
    (fun c hc => hl c (by rwa [List.head?_reverse] at hc))]
  exact List.reverse_reverse _

theorem goTrimSpace_pad_word {ws1 ws2 k : List Char}
    (hws1 : ∀ c ∈ ws1, isRegexSpace c = true)
    (hws2 : ∀ c ∈ ws2, isRegexSpace c = true)
    (hne : k ≠ []) (hkw : ∀ c ∈ k, isWordChar c = true) :
    goTrimSpace (ws1 ++ k ++ ws2) = k := by
  refine goTrimSpace_pad (fun c hc => regexSpace_isGoSpace (hws1 c hc))
    (fun c hc => regexSpace_isGoSpace (hws2 c hc)) hne ?_ ?_
  · intro c hc
    cases k with
    | nil => simp at hc
    | cons a t =>
      simp only [List.head?_cons, Option.some.injEq] at hc
      subst hc
      exact wordChar_not_goSpace (hkw a (by simp))
  · intro c hc
    have hcm : c ∈ k := by
      have h2 : c ∈ k.reverse := by
        cases hrev : k.reverse with
        | nil => simp [List.getLast?_eq_head?_reverse, hrev] at hc
        | cons a t =>
          rw [List.getLast?_eq_head?_reverse, hrev] at hc
          simp only [List.head?_cons, Option.some.injEq] at hc
          subst hc
          simp [hrev]
      simpa using h2
    exact wordChar_not_goSpace (hkw c hcm)

theorem matchFrom_padded {ws1 ws2 k v : List Char}
    (hw1 : ∀ c ∈ ws1, isRegexSpace c = true)
    (hw2 : ∀ c ∈ ws2, isRegexSpace c = true)
    (hk : k ≠ []) (hkw : ∀ c ∈ k, isWordChar c = true)
    (hv : v ≠ []) (hvn : ∀ c ∈ v, ¬c = '\n') :
    matchFrom (ws1 ++ (k ++ (ws2 ++ '=' :: v))) =
      some (ws1.length + k.length + ws2.length + 1 + v.length) := by
  obtain ⟨kh, kt, rfl⟩ : ∃ h t, k = h :: t := by
    cases k with
    | nil => exact absurd rfl hk
    | cons h t => exact ⟨h, t, rfl⟩
  have hkh : isWordChar kh = true := hkw kh (by simp)
  have hv1 : 1 ≤ v.length := by
    cases v with
    | nil => exact absurd rfl hv
    | cons a t => simp
  unfold matchFrom
  rw [wsRun_append_space hw1, List.cons_append,
    wsRun_cons_false (wordChar_not_regexSpace hkh), Nat.add_zero]
  apply findSome?_descRange_top 0 ws1.length (by omega)
  simp only [List.drop_left]
  rw [← List.cons_append, wordRun_append_word hkw, wordRun_space_eq hw2,
    Nat.add_zero]
  apply findSome?_descRange_top 1 (kh :: kt).length (by simp)
  simp only [List.drop_left]
  rw [wsRun_append_space hw2, wsRun_cons_false (by decide), Nat.add_zero]
  apply findSome?_descRange_top 0 ws2.length (by omega)
  simp only [List.drop_left]
  simp only [List.head?_cons, Option.some.injEq, if_pos rfl, List.tail_cons]
  have hwle : wsRun v ≤ v.length := wsRun_le_length v
  rcases Nat.lt_or_ge (wsRun v) v.length with hlt | hge
  · obtain ⟨c, t, hct, hcs⟩ := head_drop_wsRun hlt
    apply findSome?_descRange_top 0 (wsRun v) (by omega)
    have hdot : dotRun (v.drop (wsRun v)) = v.length - wsRun v := by
      rw [dotRun_eq_length]
      · simp
      · intro c2 hc2
        exact hvn c2 (List.mem_of_mem_drop hc2)
    rw [hdot]
    apply findSome?_descRange_top 1 (v.length - wsRun v) (by omega)
    have hlen5 : v.length - wsRun v = (v.drop (wsRun v)).length := by
      simp [List.length_drop]
    rw [hlen5]
    simp only [List.drop_length, wsRun]
    rw [show descRange 0 0 = [0] from rfl, findSome?_singleton]
    simp only [List.drop_nil, List.isEmpty_nil, if_true, Option.some.injEq,
      List.length_cons, List.length_drop]
    omega
  · have heq : wsRun v = v.length := Nat.le_antisymm hwle hge
    rw [heq]
    apply findSome?_descRange_second v.length hv1
    · simp only [List.drop_length, dotRun]
      rw [show descRange 1 0 = [] from rfl]
      exact List.findSome?_nil
    · have hlen1 : (v.drop (v.length - 1)).length = 1 := by
        simp only [List.length_drop]
        omega
      obtain ⟨c, hc⟩ := List.length_eq_one.mp hlen1
      have hcv : c ∈ v := by
        have hmem : c ∈ v.drop (v.length - 1) := by simp [hc]
        exact List.mem_of_mem_drop hmem
      simp only [hc]
      simp only [dotRun_cons_true (hvn c hcv)]
      simp only [dotRun, Nat.zero_add]
      rw [show descRange 1 1 = [1] from rfl, findSome?_singleton]
      simp only [List.drop_succ_cons, List.drop_nil, wsRun]
      rw [show descRange 0 0 = [0] from rfl, findSome?_singleton]
      simp only [List.drop_nil, List.isEmpty_nil, if_true, Option.some.injEq,
        List.length_cons]
      omega

/-- C6 (amended): for every accepted line, here with arbitrary pattern
whitespace around the key, UnmarshalENV trims surrounding whitespace from
key and value and then strips one leading double quote when present and
one trailing double quote when present, independently: an outer pair is
removed with inner quotes preserved verbatim, but a one-sided outer quote
is also removed; a value with neither a leading nor a trailing quote is
kept unchanged apart from the trim. -/
theorem c6_quote_handling (ws1 ws2 : List Char) (k v : String)
    (hw1 : ∀ c ∈ ws1, isRegexSpace c = true)
    (hw2 : ∀ c ∈ ws2, isRegexSpace c = true)
    (hk : goodKey k)
    (hvne : v.data ≠ []) (hvn : ∀ c ∈ v.data, ¬c = '\n') :
    ∃ w : List Char,
      UnmarshalENV (String.mk (ws1 ++ k.data ++ ws2 ++ '=' :: v.data)) =
        Except.ok [(k, String.mk w)] ∧
      ((goTrimSpace v.data).head? = some dquote ∧
         (goTrimSpace v.data).getLast? = some dquote ∧
         2 ≤ (goTrimSpace v.data).length →
        w = ((goTrimSpace v.data).drop 1).dropLast) ∧
      ((goTrimSpace v.data).head? = some dquote ∧
         ¬((goTrimSpace v.data).getLast? = some dquote ∧
           2 ≤ (goTrimSpace v.data).length) →
        w = (goTrimSpace v.data).drop 1) ∧
      (¬(goTrimSpace v.data).head? = some dquote ∧
         (goTrimSpace v.data).getLast? = some dquote →
        w = (goTrimSpace v.data).dropLast) ∧
      (¬(goTrimSpace v.data).head? = some dquote ∧
         ¬(goTrimSpace v.data).getLast? = some dquote →
        w = goTrimSpace v.data) := by
  have hm := matchFrom_padded hw1 hw2 hk.1 hk.2 hvne hvn
  have hm' : matchFrom (ws1 ++ k.data ++ ws2 ++ '=' :: v.data) =
      some ((ws1 ++ k.data ++ ws2 ++ '=' :: v.data).length) := by
    rw [List.append_assoc, List.append_assoc, hm]
    simp only [Option.some.injEq, List.length_append, List.length_cons]
    omega
  have hcs : ws1 ++ k.data ++ ws2 ++ '=' :: v.data ≠ [] := by simp
  have hpre : ∀ c ∈ ws1 ++ k.data ++ ws2, ¬c = '=' := by
    intro c hc
    rcases List.mem_append.mp hc with hc1 | hc1
    · rcases List.mem_append.mp hc1 with hc2 | hc2
      · exact regexSpace_ne_eqsign (hw1 c hc2)
      · exact wordChar_ne_eqsign (hk.2 c hc2)
    · exact regexSpace_ne_eqsign (hw2 c hc1)
  refine ⟨trimTrailQuote (trimLeadQuote (goTrimSpace v.data)), ?_, ?_, ?_, ?_, ?_⟩
  · show (findAllAux ((ws1 ++ k.data ++ ws2 ++ '=' :: v.data).length + 1)
      (ws1 ++ k.data ++ ws2 ++ '=' :: v.data)).foldlM envAssign [] = _
    rw [findAllAux_match hcs hm', List.take_length, List.drop_length]
    rw [show nextLine [] = [] from rfl, findAllAux_nil, ite_self, List.foldlM_cons]
    unfold envAssign
    rw [cutEq_word_key hpre]
    change Except.ok (mapSet [] (String.mk (goTrimSpace (ws1 ++ k.data ++ ws2)))
      (String.mk (trimTrailQuote (trimLeadQuote (goTrimSpace v.data)))))
        >>= (fun b => List.foldlM envAssign b []) = _
    rw [goTrimSpace_pad_word hw1 hw2 hk.1 hk.2, string_eta]
    rfl
  · rintro ⟨hh, hl, hlen⟩
    rw [trimLeadQuote_head hh]
    rw [trimTrailQuote_last (by rw [getLast?_drop_one hlen]; exact hl)]
  · rintro ⟨hh, hnot⟩
    rw [trimLeadQuote_head hh]
    by_cases hlen : 2 ≤ (goTrimSpace v.data).length
    · have hl : ¬(goTrimSpace v.data).getLast? = some dquote :=
        fun hl => hnot ⟨hl, hlen⟩
      rw [trimTrailQuote_no (by rw [getLast?_drop_one hlen]; exact hl)]
    · have h1 : (goTrimSpace v.data).length = 1 := by
        cases hg : goTrimSpace v.data with
        | nil => rw [hg] at hh; exact Option.noConfusion hh
        | cons a t =>
          rw [hg] at hlen
          simp only [List.length_cons] at hlen ⊢
          omega
      obtain ⟨a, ha⟩ := List.length_eq_one.mp h1
      rw [ha]
      rfl
  · rintro ⟨hh, hl⟩
    rw [trimLeadQuote_no hh]
    rw [trimTrailQuote_last hl]
  · rintro ⟨hh, hl⟩
    rw [trimLeadQuote_no hh]
    rw [trimTrailQuote_no hl]

/-- C6 counterexample: the line K equals quote abc is accepted, its trimmed
value starts with a double quote but does not end with one, so it is not
wrapped in a matching pair; the claim as stated predicts the value is kept
unchanged, yet UnmarshalENV strips the one-sided leading quote. -/
theorem c6_counterexample :
    UnmarshalENV "K=\"abc" = Except.ok [("K", "abc")] ∧
    goTrimSpaceStr "\"abc" = "\"abc" ∧
    ¬("\"abc").data.getLast? = some dquote ∧
    ¬("abc" : String) = "\"abc" :=
  ⟨rfl, rfl, by decide, by decide⟩

/-- Witness for C6 at the concrete line space K tab equals quote a b quote. -/
theorem c6_witness :
    (∀ c ∈ [' '], isRegexSpace c = true) ∧
    (∀ c ∈ ['\t'], isRegexSpace c = true) ∧
    goodKey "K" ∧ ("\"ab\"" : String).data ≠ [] ∧
    (∀ c ∈ ("\"ab\"" : String).data, ¬c = '\n') ∧
    (∃ w : List Char,
      UnmarshalENV (String.mk ([' '] ++ ("K" : String).data ++ ['\t'] ++
          '=' :: ("\"ab\"" : String).data)) =
        Except.ok [("K", String.mk w)] ∧
      ((goTrimSpace ("\"ab\"" : String).data).head? = some dquote ∧
         (goTrimSpace ("\"ab\"" : String).data).getLast? = some dquote ∧
         2 ≤ (goTrimSpace ("\"ab\"" : String).data).length →
        w = ((goTrimSpace ("\"ab\"" : String).data).drop 1).dropLast) ∧
      ((goTrimSpace ("\"ab\"" : String).data).head? = some dquote ∧
         ¬((goTrimSpace ("\"ab\"" : String).data).getLast? = some dquote ∧
           2 ≤ (goTrimSpace ("\"ab\"" : String).data).length) →
        w = (goTrimSpace ("\"ab\"" : String).data).drop 1) ∧
      (¬(goTrimSpace ("\"ab\"" : String).data).head? = some dquote ∧
         (goTrimSpace ("\"ab\"" : String).data).getLast? = some dquote →
        w = (goTrimSpace ("\"ab\"" : String).data).dropLast) ∧
      (¬(goTrimSpace ("\"ab\"" : String).data).head? = some dquote ∧
         ¬(goTrimSpace ("\"ab\"" : String).data).getLast? = some dquote →
        w = goTrimSpace ("\"ab\"" : String).data)) :=
  ⟨by decide, by decide, by decide, by decide, by decide,
    c6_quote_handling [' '] ['\t'] "K" "\"ab\"" (by decide) (by decide)
      (by decide) (by decide) (by decide)⟩

theorem mapGet_isSome_iff_mem_keys {m : List (String × String)} {k : String} :
    (mapGet m k).isSome = true ↔ k ∈ m.map (fun x => x.1) := by
  induction m with
  | nil => simp [mapGet]
  | cons a t ih =>
    rw [mapGet_cons]
    by_cases h : a.1 = k
    · simp [h]
    · rw [if_neg h, ih]
      simp only [List.map_cons, List.mem_cons]
      constructor
      · exact Or.inr
      · rintro (h1 | h1)
        · exact absurd h1.symm h
        · exact h1

theorem foldlM_extendStep_ok :
    ∀ (l : List (String × String)) (acc : conf),
    (∀ x ∈ l, mapGet acc.Map x.1 = none) → (l.map (fun x => x.1)).Nodup →
    l.foldlM extendStep acc = Except.ok { Map := acc.Map ++ l, Keys := acc.Keys } := by
  intro l
  induction l with
  | nil =>
    intro acc _ _
    show Except.ok acc = _
    cases acc
    simp
  | cons x rest ih =>
    intro acc hdis hnd
    simp only [List.map_cons, List.nodup_cons] at hnd
    rw [List.foldlM_cons]
    rw [show extendStep acc x = Except.ok { acc with Map := mapSet acc.Map x.1 x.2 } from by
      unfold extendStep
      rw [hdis x (by simp)]
      rfl]
    show rest.foldlM extendStep { acc with Map := mapSet acc.Map x.1 x.2 } = _
    rw [mapSet_append (hdis x (by simp))]
    rw [ih { acc with Map := acc.Map ++ [x] } (fun x' hx' => by
      show mapGet (acc.Map ++ [x]) x'.1 = none
      rw [mapGet_append, hdis x' (by simp [hx'])]
      have hne : ¬x.1 = x'.1 := by
        intro hc
        exact hnd.1 (hc ▸ List.mem_map.mpr ⟨x', hx', rfl⟩)
      rw [show mapGet [x] x'.1 = none from by rw [mapGet_cons, if_neg hne]; rfl]
      rfl) hnd.2]
    simp

theorem foldlM_extendStep_error :
    ∀ (l : List (String × String)) (acc : conf),
    (l.map (fun x => x.1)).Nodup →
    (∃ x ∈ l, (mapGet acc.Map x.1).isSome = true) →
    ∃ k, l.foldlM extendStep acc = Except.error (GoErr.duplicateKey k) ∧
      (mapGet acc.Map k).isSome = true ∧ k ∈ l.map (fun x => x.1) := by
  intro l
  induction l with
  | nil =>
    intro acc _ h
    simp at h
  | cons x rest ih =>
    intro acc hnd hex
    simp only [List.map_cons, List.nodup_cons] at hnd
    by_cases hx : (mapGet acc.Map x.1).isSome = true
    · refine ⟨x.1, ?_, hx, by simp⟩
      rw [List.foldlM_cons]
      rw [show extendStep acc x = Except.error (GoErr.duplicateKey x.1) from by
        unfold extendStep
        rw [if_pos hx]]
      rfl
    · obtain ⟨y, hy, hys⟩ := hex
      have hyr : y ∈ rest := by
        rcases List.mem_cons.mp hy with h1 | h1
        · rw [h1] at hys; exact absurd hys hx
        · exact h1
      have hxnone : mapGet acc.Map x.1 = none := by
        cases hg : mapGet acc.Map x.1 with
        | none => rfl
        | some v => rw [hg] at hx; simp at hx
      rw [List.foldlM_cons]
      rw [show extendStep acc x = Except.ok { acc with Map := mapSet acc.Map x.1 x.2 } from by
        unfold extendStep
        rw [hxnone]
        rfl]
      have hyne : ¬y.1 = x.1 := by
        intro hc
        exact hnd.1 (hc ▸ List.mem_map.mpr ⟨y, hyr, rfl⟩)
      obtain ⟨k, herr, hks, hkm⟩ := ih { acc with Map := mapSet acc.Map x.1 x.2 }
        hnd.2 ⟨y, hyr, by
          show (mapGet (mapSet acc.Map x.1 x.2) y.1).isSome = true
          rw [mapGet_mapSet, if_neg hyne]
          exact hys⟩
      have hkne : ¬k = x.1 := by
        intro hc
        exact hnd.1 (hc ▸ hkm)
      refine ⟨k, ?_, ?_, by simp [hkm]⟩
      · show rest.foldlM extendStep _ = _
        exact herr
      · rw [mapGet_mapSet, if_neg hkne] at hks
        exact hks

/-- C2: combining two stores that share at least one key through
conf.extend fails with a duplicate-key error naming a shared key, in
whichever order the two sources are combined, so there is no override or
last-wins behaviour; for key-disjoint sources the combination succeeds and
holds exactly the union of the entries. -/
theorem c2_extend_disjoint_only (c e : conf)
    (hcnd : (c.Map.map (fun x => x.1)).Nodup)
    (hend : (e.Map.map (fun x => x.1)).Nodup) :
    ((∃ k, k ∈ c.Map.map (fun x => x.1) ∧ k ∈ e.Map.map (fun x => x.1)) →
      (∃ k, c.extend e = Except.error (GoErr.duplicateKey k) ∧
        k ∈ c.Map.map (fun x => x.1) ∧ k ∈ e.Map.map (fun x => x.1)) ∧
      (∃ k, e.extend c = Except.error (GoErr.duplicateKey k) ∧
        k ∈ c.Map.map (fun x => x.1) ∧ k ∈ e.Map.map (fun x => x.1))) ∧
    ((∀ k, k ∈ c.Map.map (fun x => x.1) → k ∉ e.Map.map (fun x => x.1)) →
      c.extend e = Except.ok { Map := c.Map ++ e.Map, Keys := c.Keys }) := by
  constructor
  · rintro ⟨k0, hkc, hke⟩
    constructor
    · obtain ⟨x, hx, hkx⟩ := List.mem_map.mp hke
      obtain ⟨k, herr, hks, hkm⟩ := foldlM_extendStep_error e.Map c hend
        ⟨x, hx, by rw [hkx]; exact mapGet_isSome_iff_mem_keys.mpr hkc⟩
      exact ⟨k, herr, mapGet_isSome_iff_mem_keys.mp hks, hkm⟩
    · obtain ⟨x, hx, hkx⟩ := List.mem_map.mp hkc
      obtain ⟨k, herr, hks, hkm⟩ := foldlM_extendStep_error c.Map e hcnd
        ⟨x, hx, by rw [hkx]; exact mapGet_isSome_iff_mem_keys.mpr hke⟩
      exact ⟨k, herr, hkm, mapGet_isSome_iff_mem_keys.mp hks⟩
  · intro hdis
    apply foldlM_extendStep_ok e.Map c ?_ hend
    intro x hx
    cases hg : mapGet c.Map x.1 with
    | none => rfl
    | some v =>
      have : x.1 ∈ c.Map.map (fun x => x.1) :=
        mapGet_isSome_iff_mem_keys.mp (by rw [hg]; rfl)
      exact absurd (List.mem_map.mpr ⟨x, hx, rfl⟩) (hdis x.1 this)

/-- Witness for C2 at two concrete stores sharing the key B, and a
disjoint pair. -/
theorem c2_witness :
    (([("A", "1"), ("B", "2")].map (fun x => x.1)).Nodup ∧
     ([("B", "9")].map (fun x => x.1)).Nodup) ∧
    ((∃ k, k ∈ [("A", "1"), ("B", "2")].map (fun x => x.1) ∧
        k ∈ [("B", "9")].map (fun x => x.1)) →
      (∃ k, (conf.mk [("A", "1"), ("B", "2")] ["A", "B"]).extend
          (conf.mk [("B", "9")] ["B"]) = Except.error (GoErr.duplicateKey k) ∧
        k ∈ [("A", "1"), ("B", "2")].map (fun x => x.1) ∧
        k ∈ [("B", "9")].map (fun x => x.1)) ∧
      (∃ k, (conf.mk [("B", "9")] ["B"]).extend
          (conf.mk [("A", "1"), ("B", "2")] ["A", "B"]) =
            Except.error (GoErr.duplicateKey k) ∧
        k ∈ [("A", "1"), ("B", "2")].map (fun x => x.1) ∧
        k ∈ [("B", "9")].map (fun x => x.1))) ∧
    ((∀ k, k ∈ [("A", "1"), ("B", "2")].map (fun x => x.1) →
        k ∉ [("B", "9")].map (fun x => x.1)) →
      (conf.mk [("A", "1"), ("B", "2")] ["A", "B"]).extend
          (conf.mk [("B", "9")] ["B"]) =
        Except.ok (conf.mk ([("A", "1"), ("B", "2")] ++ [("B", "9")])
          ["A", "B"])) :=
  ⟨⟨by decide, by decide⟩,
    c2_extend_disjoint_only (conf.mk [("A", "1"), ("B", "2")] ["A", "B"])
      (conf.mk [("B", "9")] ["B"]) (by decide) (by decide)⟩

theorem keysInv_refreshKeys (c : conf) : keysInv (conf.refreshKeys c) := rfl

theorem loadConf_ok_keysInv {fs : FS} {uj uy : Unmarshaller} {appDir : GoPath}
    {env : String} {r : GoPath × conf}
    (h : loadConf fs uj uy appDir env = Except.ok r) : keysInv r.2 := by
  unfold loadConf at h
  split at h
  · exact Except.noConfusion h
  · simp only [] at h
    split at h
    · exact Except.noConfusion h
    · have hr := Except.ok.inj h
      rw [← hr]
      exact keysInv_refreshKeys _

theorem newSingleConf_ok_keysInv {fs : FS} {uj uy : Unmarshaller} {appDir : GoPath}
    {env : String} {r : List GoPath × conf}
    (h : newSingleConf fs uj uy appDir env = Except.ok r) : keysInv r.2 := by
  unfold newSingleConf at h
  split at h
  · exact Except.noConfusion h
  · rename_i p c heq
    have hr := Except.ok.inj h
    rw [← hr]
    exact loadConf_ok_keysInv heq

theorem newExtendedConf_ok_keysInv {fs : FS} {uj uy : Unmarshaller}
    {mainConf : conf} {configPaths : List GoPath} {appDir : GoPath} {env : String}
    {extendDirs : List GoPath} {r : List GoPath × conf}
    (h : newExtendedConf fs uj uy mainConf configPaths appDir env extendDirs =
      Except.ok r) : keysInv r.2 := by
  unfold newExtendedConf at h
  split at h
  · exact Except.noConfusion h
  · have hr := Except.ok.inj h
    rw [← hr]
    exact keysInv_refreshKeys _

theorem newMergedConf_ok_keysInv {fs : FS} {uj uy : Unmarshaller}
    {extConf : conf} {configPath : GoPath} {appDir : GoPath} {env : String}
    {r : List GoPath × conf}
    (h : newMergedConf fs uj uy extConf configPath appDir env = Except.ok r) :
    keysInv r.2 := by
  unfold newMergedConf at h
  split at h
  · exact Except.noConfusion h
  · split at h
    · exact Except.noConfusion h
    · have hr := Except.ok.inj h
      rw [← hr]
      exact keysInv_refreshKeys _

theorem newConf_ok_keysInv {fs : FS} {uj uy : Unmarshaller} {pfx : String}
    {appDir : GoPath} {env : String} {extendDirs : List GoPath} {mergeFlag : Bool}
    {r : List GoPath × conf}
    (h : newConf fs uj uy pfx appDir env extendDirs mergeFlag = Except.ok r) :
    keysInv r.2 := by
  unfold newConf at h
  split at h
  · exact Except.noConfusion h
  · rename_i paths c heq
    split at h
    · exact Except.noConfusion h
    · split at h
      · exact newExtendedConf_ok_keysInv h
      · split at h
        · exact newMergedConf_ok_keysInv h
        · split at h
          · split at h
            · exact Except.noConfusion h
            · split at h
              · exact Except.noConfusion h
              · exact newExtendedConf_ok_keysInv h
          · have hr := Except.ok.inj h
            rw [← hr]
            exact newSingleConf_ok_keysInv heq

/-- C9: every store returned successfully by the loader or by any
composition operation satisfies the invariant that Keys equals the sorted
key list of Map, because each operation ends with a refreshKeys call, and
refreshKeys is idempotent: refreshing twice equals refreshing once. -/
theorem c9_keys_invariant :
    (∀ (fs : FS) (uj uy : Unmarshaller) (appDir : GoPath) (env : String)
      (r : GoPath × conf),
      loadConf fs uj uy appDir env = Except.ok r → keysInv r.2) ∧
    (∀ (fs : FS) (uj uy : Unmarshaller) (appDir : GoPath) (env : String)
      (r : List GoPath × conf),
      newSingleConf fs uj uy appDir env = Except.ok r → keysInv r.2) ∧
    (∀ (fs : FS) (uj uy : Unmarshaller) (mainConf : conf)
      (configPaths : List GoPath) (appDir : GoPath) (env : String)
      (extendDirs : List GoPath) (r : List GoPath × conf),
      newExtendedConf fs uj uy mainConf configPaths appDir env extendDirs =
        Except.ok r → keysInv r.2) ∧
    (∀ (fs : FS) (uj uy : Unmarshaller) (extConf : conf) (configPath : GoPath)
      (appDir : GoPath) (env : String) (r : List GoPath × conf),
      newMergedConf fs uj uy extConf configPath appDir env = Except.ok r →
        keysInv r.2) ∧
    (∀ (fs : FS) (uj uy : Unmarshaller) (pfx : String) (appDir : GoPath)
      (env : String) (extendDirs : List GoPath) (mergeFlag : Bool)
      (r : List GoPath × conf),
      newConf fs uj uy pfx appDir env extendDirs mergeFlag = Except.ok r →
        keysInv r.2) ∧
    (∀ c : conf, conf.refreshKeys (conf.refreshKeys c) = conf.refreshKeys c) :=
  ⟨fun _ _ _ _ _ _ h => loadConf_ok_keysInv h,
   fun _ _ _ _ _ _ h => newSingleConf_ok_keysInv h,
   fun _ _ _ _ _ _ _ _ _ h => newExtendedConf_ok_keysInv h,
   fun _ _ _ _ _ _ _ _ h => newMergedConf_ok_keysInv h,
   fun _ _ _ _ _ _ _ _ _ h => newConf_ok_keysInv h,
   fun _ => rfl⟩

/-- Witness for C9: a successful resolution on a concrete filesystem whose
resulting store satisfies the invariant. -/
theorem c9_witness :
    newConf fsT ujUnused ujUnused "APP_" ["app"] "dev" [] false =
      Except.ok ([["app", ".env"]],
        conf.mk [("APP_FOO", "foo"), ("APP_BAR", "bar")] ["APP_BAR", "APP_FOO"]) ∧
    keysInv (conf.mk [("APP_FOO", "foo"), ("APP_BAR", "bar")]
      ["APP_BAR", "APP_FOO"]) :=
  ⟨rfl, c9_keys_invariant.2.2.2.2.1 fsT ujUnused ujUnused "APP_" ["app"] "dev"
    [] false ([["app", ".env"]],
      conf.mk [("APP_FOO", "foo"), ("APP_BAR", "bar")] ["APP_BAR", "APP_FOO"]) rfl⟩

/-- C4 (amended): when both a non-empty extension list and the merge flag
are supplied, newConf never produces a composed configuration: it always
fails, and it fails with the not-implemented error whenever the base
single-config load succeeds; when the base load itself fails, that loader
error is returned instead of the not-implemented error. -/
theorem c4_extend_merge_rejected (fs : FS) (uj uy : Unmarshaller) (pfx : String)
    (appDir : GoPath) (env : String) (extendDirs : List GoPath)
    (hne : extendDirs ≠ []) :
    (¬∃ r, newConf fs uj uy pfx appDir env extendDirs true = Except.ok r) ∧
    (∀ r0, newSingleConf fs uj uy appDir env = Except.ok r0 →
      newConf fs uj uy pfx appDir env extendDirs true =
        Except.error GoErr.notImplemented) := by
  have hb : (!extendDirs.isEmpty && true) = true := by
    cases extendDirs with
    | nil => exact absurd rfl hne
    | cons a t => rfl
  constructor
  · rintro ⟨r, hr⟩
    unfold newConf at hr
    split at hr
    · exact Except.noConfusion hr
    · rw [if_pos hb] at hr
      exact Except.noConfusion hr
  · intro r0 h0
    obtain ⟨paths, c⟩ := r0
    unfold newConf
    rw [h0]
    simp only []
    rw [if_pos hb]

/-- C4 counterexample: with both composition flags supplied but no config
file on disk, newConf fails with the config-not-found error of the base
load, not with the not-implemented error. -/
theorem c4_counterexample :
    newConf fsC4 ujUnused ujUnused "APP_" ["app"] "dev" [["e"]] true =
      Except.error (GoErr.configNotFound "dev") ∧
    ¬((Except.error (GoErr.configNotFound "dev") :
        Except GoErr (List GoPath × conf)) =
      Except.error GoErr.notImplemented) :=
  ⟨rfl, fun h => GoErr.noConfusion (Except.error.inj h)⟩

/-- Witness for C4 on a filesystem where the base load succeeds. -/
theorem c4_witness :
    (([["e"]] : List GoPath) ≠ []) ∧
    (¬∃ r, newConf fsT ujUnused ujUnused "APP_" ["app"] "dev" [["e"]] true =
      Except.ok r) ∧
    (∀ r0, newSingleConf fsT ujUnused ujUnused ["app"] "dev" = Except.ok r0 →
      newConf fsT ujUnused ujUnused "APP_" ["app"] "dev" [["e"]] true =
        Except.error GoErr.notImplemented) :=
  ⟨by decide,
    c4_extend_merge_rejected fsT ujUnused ujUnused "APP_" ["app"] "dev" [["e"]]
      (by decide)⟩

theorem getConfigFilePath_ok {fs : FS} {appDir : GoPath} {env ft : String}
    (hdir : fs.dirs.contains appDir = true) :
    getConfigFilePath fs appDir env ft =
      Except.ok (appDir ++ [configFileName env ft]) := by
  unfold getConfigFilePath
  rw [if_pos hdir]

theorem pathsForType_ok {fs : FS} {appDir : GoPath} {env ft : String}
    (hdir : fs.dirs.contains appDir = true) :
    pathsForType fs appDir env ft = Except.ok
      ((if ft = FileTypeENV then [] else [appDir ++ [configFileName env ft]]) ++
       (if env = EnvDev then [appDir ++ [configFileName "" ft]] else [])) := by
  unfold pathsForType
  by_cases h1 : ft = FileTypeENV <;> by_cases h2 : env = EnvDev <;>
    simp [h1, h2, getConfigFilePath_ok hdir, Except.map]

theorem getConfigFilePaths_ok {fs : FS} {appDir : GoPath} {env : String}
    (hdir : fs.dirs.contains appDir = true) :
    getConfigFilePaths fs appDir env = Except.ok (candidatePaths appDir env) := by
  unfold getConfigFilePaths
  rw [pathsForType_ok hdir, pathsForType_ok hdir, pathsForType_ok hdir,
    pathsForType_ok hdir]
  simp only []
  unfold candidatePaths
  rw [if_neg (show ¬FileTypeSH = FileTypeENV from by decide),
    if_neg (show ¬FileTypeJSON = FileTypeENV from by decide),
    if_neg (show ¬FileTypeYAML = FileTypeENV from by decide)]
  simp [List.append_assoc]

theorem ReadConfigFile_eq {fs : FS} {appDir : GoPath} {env : String}
    (hdir : fs.dirs.contains appDir = true) :
    ReadConfigFile fs appDir env =
      match (candidatePaths appDir env).find?
          (fun p => (fs.fileContent p).isSome) with
      | none => Except.error (GoErr.configNotFound env)
      | some p =>
        if goTrimSpaceStr ((fs.fileContent p).getD "") = "" then
          Except.error (GoErr.emptyFile (p.getLast?.getD "."))
        else Except.ok (p, (fs.fileContent p).getD "") := by
  unfold ReadConfigFile
  rw [getConfigFilePaths_ok hdir]

/-- C1: with an existing root directory, the Loader builds its candidate
paths in the fixed precedence order bare line codec file, shell suffixed
file, JSON, YAML, adding the environment-less name of each format exactly
for the dev environment; ReadConfigFile selects the first candidate that
exists on disk, non-existence of earlier candidates is not an error, the
config-not-found error occurs exactly when no candidate exists, and when a
bare dotenv file exists for dev it is selected ahead of config.json. -/
theorem c1_loader_precedence (fs : FS) (appDir : GoPath) (env : String)
    (hdir : fs.dirs.contains appDir = true) :
    getConfigFilePaths fs appDir env = Except.ok (candidatePaths appDir env) ∧
    (ReadConfigFile fs appDir env = Except.error (GoErr.configNotFound env) ↔
      ∀ p ∈ candidatePaths appDir env, fs.fileContent p = none) ∧
    (∀ p, (candidatePaths appDir env).find?
        (fun q => (fs.fileContent q).isSome) = some p →
      ∃ b, fs.fileContent p = some b ∧
        ReadConfigFile fs appDir env =
          (if goTrimSpaceStr b = "" then
            Except.error (GoErr.emptyFile (p.getLast?.getD "."))
          else Except.ok (p, b))) ∧
    (env = EnvDev → (fs.fileContent (appDir ++ [".env"])).isSome = true →
      (candidatePaths appDir env).find?
        (fun q => (fs.fileContent q).isSome) = some (appDir ++ [".env"])) := by
  refine ⟨getConfigFilePaths_ok hdir, ?_, ?_, ?_⟩
  · rw [ReadConfigFile_eq hdir]
    cases hf : (candidatePaths appDir env).find?
        (fun p => (fs.fileContent p).isSome) with
    | none =>
      simp only []
      constructor
      · intro _ p hp
        have hall := List.find?_eq_none.mp hf p hp
        simpa using hall
      · intro _
        trivial
    | some p =>
      simp only []
      constructor
      · intro h
        by_cases hb : goTrimSpaceStr ((fs.fileContent p).getD "") = ""
        · rw [if_pos hb] at h
          exact absurd (Except.error.inj h) (fun hc => GoErr.noConfusion hc)
        · rw [if_neg hb] at h
          exact Except.noConfusion h
      · intro hall
        have hp := List.find?_some hf
        have hmem := List.mem_of_find?_eq_some hf
        rw [hall p hmem] at hp
        simp at hp
  · intro p hf
    rw [ReadConfigFile_eq hdir, hf]
    have hp := List.find?_some hf
    cases hb : fs.fileContent p with
    | none => rw [hb] at hp; simp at hp
    | some b =>
      refine ⟨b, rfl, ?_⟩
      simp only [hb, Option.getD_some]
  · intro hdev hex
    subst hdev
    rw [show candidatePaths appDir EnvDev =
      (appDir ++ [".env"]) ::
        [appDir ++ [".env.dev.sh"], appDir ++ [".env.sh"],
         appDir ++ ["config.dev.json"], appDir ++ ["config.json"],
         appDir ++ ["config.dev.yaml"], appDir ++ ["config.yaml"]] from rfl]
    exact List.find?_cons_of_pos _ hex

/-- Witness for C1 on a filesystem holding both a bare dotenv file and
config.json for dev. -/
theorem c1_witness :
    fsT.dirs.contains ["app"] = true ∧
    (getConfigFilePaths fsT ["app"] "dev" =
        Except.ok (candidatePaths ["app"] "dev") ∧
     (ReadConfigFile fsT ["app"] "dev" = Except.error (GoErr.configNotFound "dev") ↔
       ∀ p ∈ candidatePaths ["app"] "dev", fsT.fileContent p = none) ∧
     (∀ p, (candidatePaths ["app"] "dev").find?
         (fun q => (fsT.fileContent q).isSome) = some p →
       ∃ b, fsT.fileContent p = some b ∧
         ReadConfigFile fsT ["app"] "dev" =
           (if goTrimSpaceStr b = "" then
             Except.error (GoErr.emptyFile (p.getLast?.getD "."))
           else Except.ok (p, b))) ∧
     ("dev" = EnvDev → (fsT.fileContent (["app"] ++ [".env"])).isSome = true →
       (candidatePaths ["app"] "dev").find?
         (fun q => (fsT.fileContent q).isSome) = some (["app"] ++ [".env"]))) :=
  ⟨by decide, c1_loader_precedence fsT ["app"] "dev" (by decide)⟩

theorem mergeWalkAux_eq_chain (fs : FS) (uj uy : Unmarshaller) (env : String) :
    ∀ (fuel : Nat) (d : GoPath), d.length < fuel →
    mergeWalkAux fs uj uy env fuel d =
      (match (ancestorChainAux fuel d).findSome?
          (fun d' => (loadConf fs uj uy d' env).toOption) with
      | some r => Except.ok r
      | none => Except.error GoErr.parentNotFound) := by
  intro fuel
  induction fuel with
  | zero =>
    intro d hd
    omega
  | succ f ih =>
    intro d hd
    show (match loadConf fs uj uy d env with
      | Except.ok r => Except.ok r
      | Except.error _ =>
        if d.dropLast.isEmpty then Except.error GoErr.parentNotFound
        else mergeWalkAux fs uj uy env f d.dropLast) = _
    rw [show ancestorChainAux (f + 1) d =
      d :: (if d.dropLast.isEmpty then [] else ancestorChainAux f d.dropLast)
      from rfl]
    rw [List.findSome?_cons]
    cases hl : loadConf fs uj uy d env with
    | ok r =>
      rw [show (Except.ok r : Except GoErr (GoPath × conf)).toOption = some r from rfl]
    | error e =>
      rw [show (Except.error e : Except GoErr (GoPath × conf)).toOption = none from rfl]
      by_cases hemp : d.dropLast.isEmpty
      · rw [if_pos hemp, if_pos hemp]
        rfl
      · rw [if_neg hemp, if_neg hemp]
        have hlen : d.dropLast.length < f := by
          have h1 : d.dropLast ≠ [] := by
            intro hc
            exact hemp (by rw [hc]; rfl)
          have h2 : 1 ≤ d.dropLast.length := by
            cases hdl : d.dropLast with
            | nil => exact absurd hdl h1
            | cons a t => simp
          have h3 : d.dropLast.length = d.length - 1 := List.length_dropLast d
          omega
        exact ih d.dropLast hlen

/-- C3: newMergedConf walks upward from the parent of the request
directory, one level at a time as recorded by ancestorChain, attempting a
full loadConf at each level; if every level fails it returns the
parent-not-found error, and otherwise the first successful level becomes
the base into which the original config is merged under the disjoint-key
rule, with the parent path listed before the original path. -/
theorem c3_merge_walk (fs : FS) (uj uy : Unmarshaller) (extConf : conf)
    (configPath appDir : GoPath) (env : String) :
    ((∀ d ∈ ancestorChain appDir.dropLast, ∀ r,
        ¬loadConf fs uj uy d env = Except.ok r) →
      newMergedConf fs uj uy extConf configPath appDir env =
        Except.error GoErr.parentNotFound) ∧
    (∀ p cp, (ancestorChain appDir.dropLast).findSome?
        (fun d => (loadConf fs uj uy d env).toOption) = some (p, cp) →
      newMergedConf fs uj uy extConf configPath appDir env =
        (cp.extend extConf).map
          (fun c => ([p, configPath], conf.refreshKeys c))) := by
  have hwalk := mergeWalkAux_eq_chain fs uj uy env (appDir.dropLast.length + 1)
    appDir.dropLast (Nat.lt_succ_self _)
  constructor
  · intro hall
    have hnone : (ancestorChain appDir.dropLast).findSome?
        (fun d => (loadConf fs uj uy d env).toOption) = none := by
      rw [List.findSome?_eq_none_iff]
      intro d hd
      cases hl : loadConf fs uj uy d env with
      | ok r => exact absurd hl (hall d hd r)
      | error e => rfl
    unfold newMergedConf
    rw [hwalk]
    rw [show ancestorChain appDir.dropLast =
      ancestorChainAux (appDir.dropLast.length + 1) appDir.dropLast from rfl] at hnone
    rw [hnone]
  · intro p cp hsome
    unfold newMergedConf
    rw [hwalk]
    rw [show ancestorChain appDir.dropLast =
      ancestorChainAux (appDir.dropLast.length + 1) appDir.dropLast from rfl] at hsome
    rw [hsome]
    cases hext : cp.extend extConf with
    | ok c =>
      show (match cp.extend extConf with
        | Except.error e => Except.error e
        | Except.ok c2 => Except.ok ([p, configPath], c2.refreshKeys)) = _
      rw [hext]
      rfl
    | error e =>
      show (match cp.extend extConf with
        | Except.error e => Except.error e
        | Except.ok c2 => Except.ok ([p, configPath], c2.refreshKeys)) = _
      rw [hext]
      rfl

/-- Witness for C3: a concrete merge where the parent one level up
resolves, its path listed before the request path. -/
theorem c3_witness :
    newMergedConf fsM ujUnused ujUnused (conf.mk [("Q", "2")] ["Q"])
      ["a", "b", ".env"] ["a", "b"] "dev" =
      ((conf.mk [("P", "1")] ["P"]).extend (conf.mk [("Q", "2")] ["Q"])).map
        (fun c => ([["a", ".env"], ["a", "b", ".env"]], conf.refreshKeys c)) :=
  (c3_merge_walk fsM ujUnused ujUnused (conf.mk [("Q", "2")] ["Q"])
    ["a", "b", ".env"] ["a", "b"] "dev").2 ["a", ".env"]
    (conf.mk [("P", "1")] ["P"]) rfl

/-- C8 counterexample: with files config.config.dev.json, config.dev-x.json
and config.dev.json present, getEnvs returns dev, dev-x, dev in the sorted
order of the file names, which is neither sorted by environment name nor
de-duplicated. -/
theorem c8_counterexample :
    getEnvs fsE2 ["app"] false = ["dev", "dev-x", "dev"] ∧
    isSortedAsc ["dev", "dev-x", "dev"] = false ∧
    ¬(["dev", "dev-x", "dev"] : List String).Nodup :=
  ⟨rfl, rfl, by decide⟩

/-- C8 (amended): in the scenario directory getEnvs returns dev and prod
without samples and sample.dev with samples, files not matching the pattern
are ignored rather than reported, and every sample-restricted result
carries the sample marker; in general the environment names appear in the
sorted order of the matched file names, without further sorting or
de-duplication of the environment names themselves. -/
theorem c8_enumeration :
    getEnvs fsE ["app"] false = ["dev", "prod"] ∧
    getEnvs fsE ["app"] true = ["sample.dev"] ∧
    getEnvs fsE3 ["app"] false = ["dev", "prod"] ∧
    getEnvs fsE3 ["app"] true = ["sample.dev"] ∧
    (∀ (fs : FS) (dir : GoPath) (e : String), e ∈ getEnvs fs dir true →
      ("sample.").data.isPrefixOf e.data = true) := by
  refine ⟨rfl, rfl, rfl, rfl, ?_⟩
  intro fs dir e he
  unfold getEnvs at he
  simp only [if_pos rfl] at he
  obtain ⟨baseName, hmem, hmap⟩ := List.mem_filterMap.mp he
  cases hf : findEnvSubmatch baseName.data with
  | none => rw [hf] at hmap; exact Option.noConfusion hmap
  | some env =>
    rw [hf] at hmap
    have hmatch := (List.mem_filter.mp hmem).2
    unfold singleStarMatch at hmatch
    simp only [Bool.and_eq_true] at hmatch
    have hpre : ("sample.config.").data.isPrefixOf baseName.data = true :=
      hmatch.1
    have hpre2 : ("sample.").data.isPrefixOf baseName.data = true := by
      rw [List.isPrefixOf_iff_prefix] at hpre ⊢
      exact (show ("sample.").data <+: ("sample.config.").data from by decide).trans
        hpre
    rw [show (match some env with
      | some env =>
        some (if ("sample.").data.isPrefixOf baseName.data
              then "sample." ++ String.mk env else String.mk env)
      | none => none) =
      some (if ("sample.").data.isPrefixOf baseName.data
            then "sample." ++ String.mk env else String.mk env) from rfl] at hmap
    rw [if_pos hpre2] at hmap
    have he2 := Option.some.inj hmap
    rw [← he2]
    rw [List.isPrefixOf_iff_prefix, String.data_append]
    exact List.prefix_append _ _

/-- Witness for C8: a concrete sample-restricted result carrying the
sample marker. -/
theorem c8_witness :
    ("sample.dev" ∈ getEnvs fsE ["app"] true) ∧
    ("sample.").data.isPrefixOf ("sample.dev" : String).data = true :=
  ⟨by decide, c8_enumeration.2.2.2.2 fsE ["app"] "sample.dev" (by decide)⟩

theorem strLeIR_total : ∀ (as bs : List Char),
    strLeIR as bs = true ∨ strLeIR bs as = true := by
  intro as
  induction as with
  | nil => intro bs; left; cases bs <;> rfl
  | cons a t ih =>
    intro bs
    cases bs with
    | nil => right; rfl
    | cons b u =>
      unfold strLeIR
      by_cases h1 : a.val < b.val
      · left; rw [if_pos h1]
      · by_cases h2 : b.val < a.val
        · right; rw [if_pos h2]
        · rw [if_neg h1, if_neg h2, if_neg h2, if_neg h1]
          exact ih u

theorem strLe_total (a b : String) : strLe a b = true ∨ strLe b a = true :=
  strLeIR_total a.data b.data

theorem insertSorted_perm (a : String) :
    ∀ l : List String, (insertSorted a l).Perm (a :: l) := by
  intro l
  induction l with
  | nil => exact List.Perm.refl _
  | cons b t ih =>
    unfold insertSorted
    by_cases h : strLe a b = true
    · rw [if_pos h]
    · rw [if_neg h]
      exact (List.Perm.cons b ih).trans (List.Perm.swap a b t)

theorem sortStrings_perm : ∀ l : List String, (sortStrings l).Perm l := by
  intro l
  induction l with
  | nil => exact List.Perm.refl _
  | cons a t ih =>
    show (insertSorted a (sortStrings t)).Perm (a :: t)
    exact (insertSorted_perm a (sortStrings t)).trans (List.Perm.cons a ih)

theorem insertSorted_sorted (a : String) :
    ∀ l : List String, isSortedAsc l = true → isSortedAsc (insertSorted a l) = true := by
  intro l
  induction l with
  | nil => intro _; rfl
  | cons b t ih =>
    intro hs
    unfold insertSorted
    by_cases hab : strLe a b = true
    · rw [if_pos hab]
      show (strLe a b && isSortedAsc (b :: t)) = true
      rw [hab, hs]
      rfl
    · rw [if_neg hab]
      have hba : strLe b a = true := (strLe_total a b).resolve_left hab
      cases t with
      | nil =>
        show (strLe b a && isSortedAsc [a]) = true
        rw [hba]
        rfl
      | cons c u =>
        have hsplit : strLe b c = true ∧ isSortedAsc (c :: u) = true := by
          have h0 : (strLe b c && isSortedAsc (c :: u)) = true := hs
          simp only [Bool.and_eq_true] at h0
          exact h0
        have hbc := hsplit.1
        have hcu := hsplit.2
        have hrec := ih hcu
        show isSortedAsc (b :: insertSorted a (c :: u)) = true
        unfold insertSorted
        by_cases hac : strLe a c = true
        · rw [if_pos hac]
          show (strLe b a && isSortedAsc (a :: c :: u)) = true
          rw [hba, Bool.true_and]
          have : insertSorted a (c :: u) = a :: c :: u := by
            show (if strLe a c = true then a :: c :: u else c :: insertSorted a u) = _
            rw [if_pos hac]
          rw [← this]
          exact hrec
        · rw [if_neg hac]
          show (strLe b c && isSortedAsc (c :: insertSorted a u)) = true
          rw [hbc, Bool.true_and]
          have : insertSorted a (c :: u) = c :: insertSorted a u := by
            show (if strLe a c = true then a :: c :: u else c :: insertSorted a u) = _
            rw [if_neg hac]
          rw [← this]
          exact hrec

theorem sortStrings_sorted : ∀ l : List String, isSortedAsc (sortStrings l) = true := by
  intro l
  induction l with
  | nil => rfl
  | cons a t ih => exact insertSorted_sorted a (sortStrings t) ih

theorem foldlM_marshalLine :
    ∀ (keys : List String) (m : List (String × String)) (acc : String),
    (∀ k ∈ keys, (mapGet m k).isSome = true) →
    keys.foldlM (marshalLine m) acc =
      Except.ok (String.mk (acc.data ++
        renderChars (keys.map (fun k => (k, (mapGet m k).getD ""))))) := by
  intro keys
  induction keys with
  | nil =>
    intro m acc _
    show Except.ok acc = _
    rw [List.map_nil, show renderChars [] = [] from rfl, List.append_nil, string_eta]
  | cons k rest ih =>
    intro m acc hk
    have hs := hk k (List.mem_cons_self k rest)
    cases hv : mapGet m k with
    | none => rw [hv] at hs; exact absurd hs (by simp)
    | some v =>
      show (marshalLine m acc k >>= fun a => rest.foldlM (marshalLine m) a) = _
      rw [show marshalLine m acc k =
        Except.ok (acc ++ k ++ "=" ++ v ++ "\n") from by
          unfold marshalLine; rw [hv]]
      show rest.foldlM (marshalLine m) (acc ++ k ++ "=" ++ v ++ "\n") = _
      rw [ih m _ (fun x hx => hk x (List.mem_cons_of_mem k hx))]
      rw [List.map_cons, renderChars_cons]
      rw [show ((k, (mapGet m k).getD "") : String × String).1 = k from rfl]
      rw [show ((k, (mapGet m k).getD "") : String × String).2 =
        (mapGet m k).getD "" from rfl, hv]
      rw [show (some v).getD "" = v from rfl]
      have hdata : (acc ++ k ++ "=" ++ v ++ "\n").data =
          acc.data ++ (k.data ++ '=' :: (v.data ++ ['\n'])) := by
        simp [String.data_append]
      rw [hdata]
      rw [List.append_assoc, List.append_assoc]
      simp

theorem lastVal_nodup :
    ∀ (l : List (String × String)) (k v : String),
    (l.map (fun e => e.1)).Nodup → (k, v) ∈ l → lastVal l k = some v := by
  intro l
  induction l with
  | nil => intro k v _ hmem; simp at hmem
  | cons a t ih =>
    intro k v hnd hmem
    obtain ⟨ka, va⟩ := a
    rw [List.map_cons, List.nodup_cons] at hnd
    by_cases hka : ka = k
    · have hvt : ∀ e ∈ t, ¬e.1 = k := by
        intro e he hek
        exact hnd.1 (hka ▸ hek ▸ List.mem_map_of_mem (fun e => e.1) he)
      have hav : va = v := by
        rcases List.mem_cons.mp hmem with h1 | h1
        · exact (Prod.mk.injEq _ _ _ _ ▸ h1.symm).2
        · exact absurd rfl (hvt (k, v) h1)
      unfold lastVal
      rw [List.filter_cons]
      simp only [hka, decide_eq_true_eq, if_true, decide_True]
      have hft : t.filter (fun e => decide (e.1 = k)) = [] := by
        rw [List.filter_eq_nil_iff]
        intro e he
        simp only [decide_eq_true_eq]
        exact hvt e he
      rw [hft]
      rw [hav]
      rfl
    · have hmt : (k, v) ∈ t := by
        rcases List.mem_cons.mp hmem with h1 | h1
        · exact absurd (Prod.mk.injEq _ _ _ _ ▸ h1.symm).1 hka
        · exact h1
      unfold lastVal
      rw [List.filter_cons]
      simp only [hka, decide_eq_true_eq, if_false, decide_False]
      exact ih k v hnd.2 hmt

theorem MarshalENV_eq {c : conf} (h : ∀ k ∈ c.Keys, (mapGet c.Map k).isSome = true) :
    MarshalENV c = Except.ok (renderPairs (pairsOf c)) := by
  unfold MarshalENV
  rw [foldlM_marshalLine c.Keys c.Map "" h]
  rw [show ("" : String).data = [] from rfl, List.nil_append]
  rfl

theorem pairsOf_map_fst (c : conf) : (pairsOf c).map (fun e => e.1) = c.Keys := by
  unfold pairsOf
  induction c.Keys with
  | nil => rfl
  | cons k t ih => rw [List.map_cons, List.map_cons, ih]

/-- C5 (amended): for a store whose Keys list satisfies the sorted-keys
invariant, whose map has no duplicate keys and whose values are nonempty
with no newlines and no whitespace or double quote at either edge,
MarshalENV succeeds, its output is exactly one KEY=VALUE line per entry of
Keys in order, Keys is ascending in Go byte order, and UnmarshalENV of the
output agrees with the original map at every key. Nonemptiness of the
values is essential: the round trip of the claim fails for an empty value,
see the counterexample. -/
theorem c5_roundtrip (c : conf) (hinv : keysInv c)
    (hnd : (c.Map.map (fun e => e.1)).Nodup)
    (hgood : ∀ e ∈ c.Map, goodPair e) :
    ∃ b, MarshalENV c = Except.ok b ∧
      b = renderPairs (pairsOf c) ∧
      isSortedAsc c.Keys = true ∧
      ∃ m, UnmarshalENV b = Except.ok m ∧
        ∀ key, mapGet m key = mapGet c.Map key := by
  have hmemk : ∀ k ∈ c.Keys, k ∈ c.Map.map (fun e => e.1) := by
    intro k hk
    rw [hinv] at hk
    exact (sortStrings_perm _).mem_iff.mp hk
  have hsome : ∀ k ∈ c.Keys, (mapGet c.Map k).isSome = true :=
    fun k hk => mapGet_isSome_iff_mem_keys.mpr (hmemk k hk)
  have hgp : ∀ e ∈ pairsOf c, goodPair e := by
    intro e he
    unfold pairsOf at he
    obtain ⟨k, hk, hek⟩ := List.mem_map.mp he
    cases hv : mapGet c.Map k with
    | none =>
      have hx := hsome k hk
      rw [hv] at hx
      exact absurd hx (by simp)
    | some v =>
      have hmem := mem_of_mapGet_eq_some hv
      have hekv : e = (k, v) := by
        rw [← hek]
        show (k, (mapGet c.Map k).getD "") = (k, v)
        rw [hv]
        rfl
      rw [hekv]
      exact hgood (k, v) hmem
  refine ⟨_, MarshalENV_eq hsome, rfl, ?_, ?_⟩
  · rw [hinv]
    exact sortStrings_sorted _
  refine ⟨_, unmarshal_render hgp, ?_⟩
  intro key
  by_cases hmem : key ∈ c.Map.map (fun e => e.1)
  · have hkeys : key ∈ c.Keys := by
      rw [hinv]
      exact (sortStrings_perm _).mem_iff.mpr hmem
    cases hv : mapGet c.Map key with
    | none =>
      have hx := mapGet_isSome_iff_mem_keys.mpr hmem
      rw [hv] at hx
      exact absurd hx (by simp)
    | some v =>
      have hpair : (key, v) ∈ pairsOf c := by
        unfold pairsOf
        refine List.mem_map.mpr ⟨key, hkeys, ?_⟩
        show (key, (mapGet c.Map key).getD "") = (key, v)
        rw [hv]
        rfl
      have hex : ∃ e ∈ pairsOf c, e.1 = key := ⟨(key, v), hpair, rfl⟩
      rw [mapGet_foldl_last (pairsOf c) [] key hex]
      have hndp : ((pairsOf c).map (fun e => e.1)).Nodup := by
        rw [pairsOf_map_fst, hinv]
        exact ((sortStrings_perm _).nodup_iff).mpr hnd
      rw [lastVal_nodup (pairsOf c) key v hndp hpair]
  · have h1 : mapGet c.Map key = none := by
      rw [mapGet_eq_none_iff]
      intro e he hek
      exact hmem (hek ▸ List.mem_map_of_mem (fun e => e.1) he)
    have h2 : ∀ e ∈ pairsOf c, ¬e.1 = key := by
      intro e he hek
      unfold pairsOf at he
      obtain ⟨k, hk, hekk⟩ := List.mem_map.mp he
      have h3 : e.1 = k := by rw [← hekk]
      have h4 : k = key := h3 ▸ hek
      exact hmem (hmemk key (h4 ▸ hk))
    rw [mapGet_foldl_not_mem (pairsOf c) [] key h2, h1]
    rfl

/-- C5 counterexample: the store mapping KEY to the empty string has sorted
keys and values free of newlines and quotes, yet MarshalENV emits the line
KEY=, UnmarshalENV of that output drops the line entirely because the value
pattern requires at least one character, and the decoded map disagrees with
the original at KEY. -/
theorem c5_counterexample :
    MarshalENV (conf.mk [("KEY", "")] ["KEY"]) = Except.ok "KEY=\n" ∧
    UnmarshalENV "KEY=\n" = Except.ok [] ∧
    mapGet [] "KEY" = none ∧
    mapGet [("KEY", "")] "KEY" = some "" ∧
    keysInv (conf.mk [("KEY", "")] ["KEY"]) ∧
    ([("KEY", "")] : List (String × String)).all
      (fun e => e.2.data.all (fun ch => !(ch = '\n') && !(ch = dquote))) = true :=
  ⟨rfl, rfl, rfl, rfl, by unfold keysInv; rfl, by decide⟩

/-- Witness for C5 at a concrete two-entry store. -/
theorem c5_witness :
    ∃ b, MarshalENV (conf.mk [("B", "2"), ("A", "1")] ["A", "B"]) = Except.ok b ∧
      b = renderPairs (pairsOf (conf.mk [("B", "2"), ("A", "1")] ["A", "B"])) ∧
      isSortedAsc (conf.mk [("B", "2"), ("A", "1")] ["A", "B"]).Keys = true ∧
      ∃ m, UnmarshalENV b = Except.ok m ∧
        ∀ key, mapGet m key =
          mapGet (conf.mk [("B", "2"), ("A", "1")] ["A", "B"]).Map key :=
  c5_roundtrip (conf.mk [("B", "2"), ("A", "1")] ["A", "B"])
    (by unfold keysInv; rfl) (by decide) (by decide)
